import Mathlib

/-!
Verification of the Kintsugi text-fragment recovery agent.

This file gives a shallow embedding, in Lean 4, of the four Python source
files of the repository (src/assemble/fragments.py, src/outputs/receipts.py,
src/scan/walker.py, src/cli.py) and settles the frozen claims C1..C10 about
them.  Python strings are modelled as lists of unicode scalar values
(List Char), byte streams as lists of naturals below 256, and the standard
library facilities the code leans on (str.strip, str.split, bytes.decode,
hashlib.sha256) are embedded directly from their documented semantics.
-/

set_option maxRecDepth 4096

namespace Kintsugi

/-- Python text (str): a sequence of unicode scalar values. -/
abbrev Text := List Char

/-! ## Python string primitives

The semantics of the str methods used by fragments.py: strip() / rstrip()
with the Python whitespace set, strip("\n"), split("\n"), "\n".join, and the
replace-based newline folding s.replace("\r\n","\n").replace("\r","\n"). -/

/-- Characters stripped by Python str.strip() / str.rstrip() with no
argument: the unicode whitespace set used by str.isspace. -/
def pyWhitespaceChars : Text :=
  [' ', '\t', '\n', '\x0b', '\x0c', '\r', '\x1c', '\x1d',
   '\x1e', '\x1f', '\x85', '\xa0', ' ', ' ', ' ', ' ',
   ' ', ' ', ' ', ' ', ' ', ' ', ' ', ' ',
   ' ', ' ', ' ', ' ', '　']

/-- Python str.isspace for one character, as membership in that set. -/
def pyIsSpace (c : Char) : Bool := pyWhitespaceChars.contains c

/-- Python line.rstrip(): drop trailing whitespace. -/
def pyRstrip (l : Text) : Text :=
  (l.reverse.dropWhile pyIsSpace).reverse

/-- Python s.strip(): drop leading and trailing whitespace. -/
def pyStrip (l : Text) : Text :=
  ((l.dropWhile pyIsSpace).reverse.dropWhile pyIsSpace).reverse

/-- Python s.strip("\n"): drop leading and trailing newline characters. -/
def stripNL (t : Text) : Text :=
  ((t.dropWhile (· == '\n')).reverse.dropWhile (· == '\n')).reverse

/-- A blank line in the sense of fragments.py: line.strip() == "". -/
def isBlank (l : Text) : Bool :=
  (pyStrip l).isEmpty

/-- Newline folding s.replace("\r\n","\n").replace("\r","\n"): every CRLF
pair becomes one newline, every remaining CR becomes a newline. -/
def foldCR : Text → Text
  | [] => []
  | '\r' :: '\n' :: rest => '\n' :: foldCR rest
  | '\r' :: rest => '\n' :: foldCR rest
  | c :: rest => c :: foldCR rest

/-- Python s.split("\n"); in particular "".split("\n") = [""]. -/
def splitNL : Text → List Text
  | [] => [[]]
  | c :: rest =>
    if c = '\n' then [] :: splitNL rest
    else
      match splitNL rest with
      | [] => [[c]]
      | l :: ls => (c :: l) :: ls

/-- Python "\n".join(lines). -/
def intercalateNL : List Text → Text
  | [] => []
  | [l] => l
  | l :: ls => l ++ '\n' :: intercalateNL ls

/-- fragments.py _normalise_text: fold CRLF/CR to "\n", rstrip every line,
then strip leading/trailing newline characters from the whole text. -/
def normalise_text (s : Text) : Text :=
  stripNL (intercalateNL ((splitNL (foldCR s)).map pyRstrip))

/-! ## SHA-256 (hashlib.sha256(b).hexdigest())

Implemented from the FIPS 180-4 specification over Nat with explicit
reduction modulo 2^32. -/

/-- Right rotation of a 32-bit word. -/
def rotr32 (n x : Nat) : Nat :=
  Nat.lor (Nat.shiftRight x n) (Nat.shiftLeft x (32 - n)) % 4294967296

/-- SHA-256 Ch function. -/
def shaCh (e f g : Nat) : Nat :=
  Nat.xor (Nat.land e f) (Nat.land (Nat.xor 4294967295 e) g)

/-- SHA-256 Maj function. -/
def shaMaj (a b c : Nat) : Nat :=
  Nat.xor (Nat.xor (Nat.land a b) (Nat.land a c)) (Nat.land b c)

/-- SHA-256 big sigma 0. -/
def bsig0 (x : Nat) : Nat := Nat.xor (Nat.xor (rotr32 2 x) (rotr32 13 x)) (rotr32 22 x)

/-- SHA-256 big sigma 1. -/
def bsig1 (x : Nat) : Nat := Nat.xor (Nat.xor (rotr32 6 x) (rotr32 11 x)) (rotr32 25 x)

/-- SHA-256 small sigma 0. -/
def ssig0 (x : Nat) : Nat := Nat.xor (Nat.xor (rotr32 7 x) (rotr32 18 x)) (Nat.shiftRight x 3)

/-- SHA-256 small sigma 1. -/
def ssig1 (x : Nat) : Nat := Nat.xor (Nat.xor (rotr32 17 x) (rotr32 19 x)) (Nat.shiftRight x 10)

/-- The 64 SHA-256 round constants. -/
def sha256K : List Nat :=
  [1116352408, 1899447441, 3049323471, 3921009573, 961987163, 1508970993,
   2453635748, 2870763221, 3624381080, 310598401, 607225278, 1426881987,
   1925078388, 2162078206, 2614888103, 3248222580, 3835390401, 4022224774,
   264347078, 604807628, 770255983, 1249150122, 1555081692, 1996064986,
   2554220882, 2821834349, 2952996808, 3210313671, 3336571891, 3584528711,
   113926993, 338241895, 666307205, 773529912, 1294757372, 1396182291,
   1695183700, 1986661051, 2177026350, 2456956037, 2730485921, 2820302411,
   3259730800, 3345764771, 3516065817, 3600352804, 4094571909, 275423344,
   430227734, 506948616, 659060556, 883997877, 958139571, 1322822218,
   1537002063, 1747873779, 1955562222, 2024104815, 2227730452, 2361852424,
   2428436474, 2756734187, 3204031479, 3329325298]

/-- The SHA-256 initial hash value. -/
def sha256H0 : List Nat :=
  [1779033703, 3144134277, 1013904242, 2773480762, 1359893119, 2600822924, 528734635, 1541459225]

/-- Big-endian byte rendering of a value on n bytes. -/
def beBytes : Nat → Nat → List Nat
  | 0, _ => []
  | m + 1, v => beBytes m (v / 256) ++ [v % 256]

/-- SHA-256 padding: append 0x80, zeros to 56 mod 64, and the 64-bit
big-endian bit length. -/
def shaPad (msg : List Nat) : List Nat :=
  msg ++ [0x80] ++ List.replicate ((119 - msg.length % 64) % 64) 0 ++ beBytes 8 (8 * msg.length)

/-- Split a byte list into 64-byte chunks; the fuel argument bounds the
number of chunks and is always supplied large enough by chunks64. -/
def chunks64Fuel : Nat → List Nat → List (List Nat)
  | _, [] => []
  | 0, l => [l]
  | n + 1, l => l.take 64 :: chunks64Fuel n (l.drop 64)

/-- Split a byte list into 64-byte chunks. -/
def chunks64 (l : List Nat) : List (List Nat) :=
  chunks64Fuel l.length l

/-- Pack bytes into big-endian 32-bit words. -/
def toWords : List Nat → List Nat
  | b0 :: b1 :: b2 :: b3 :: rest => (((b0 * 256 + b1) * 256 + b2) * 256 + b3) :: toWords rest
  | _ => []

/-- Extend the 16-word message schedule by n further words. -/
def extendSchedule : Nat → List Nat → List Nat
  | 0, w => w
  | n + 1, w =>
    let k := w.length
    let nw := (ssig1 (w.getD (k - 2) 0) + w.getD (k - 7) 0 +
               ssig0 (w.getD (k - 15) 0) + w.getD (k - 16) 0) % 4294967296
    extendSchedule n (w ++ [nw])

/-- One SHA-256 compression round on the eight working variables. -/
def shaRound (s : List Nat) (k w : Nat) : List Nat :=
  match s with
  | [a, b, c, d, e, f, g, h] =>
    let t1 := (h + bsig1 e + shaCh e f g + k + w) % 4294967296
    let t2 := (bsig0 a + shaMaj a b c) % 4294967296
    [(t1 + t2) % 4294967296, a, b, c, (d + t1) % 4294967296, e, f, g]
  | other => other

/-- Process one 64-byte chunk, updating the running hash value. -/
def shaChunk (hv : List Nat) (chunk : List Nat) : List Nat :=
  let w := extendSchedule 48 (toWords chunk)
  let s := (sha256K.zip w).foldl (fun s kw => shaRound s kw.1 kw.2) hv
  List.zipWith (fun x y => (x + y) % 4294967296) hv s

/-- SHA-256 of a byte list as eight 32-bit words. -/
def sha256Words (msg : List Nat) : List Nat :=
  (chunks64 (shaPad msg)).foldl shaChunk sha256H0

/-- A lowercase hexadecimal digit. -/
def hexDigit (n : Nat) : Char :=
  if n < 10 then Char.ofNat (48 + n) else Char.ofNat (87 + n)

/-- Eight lowercase hex digits of a 32-bit word. -/
def toHex8 (v : Nat) : List Char :=
  (List.range 8).map (fun i => hexDigit ((v >>> (28 - 4 * i)) % 16))

/-- fragments.py _sha256_bytes: hashlib.sha256(b).hexdigest(), the 64-character
lowercase hex digest. -/
def sha256_bytes (msg : List Nat) : String :=
  ⟨(sha256Words msg).map toHex8 |>.flatten⟩

/-! ## Text codecs

bytes.decode("utf-8") / ("utf-16-le") / ("utf-16-be") with Python's strict
error handling: any malformed input yields a UnicodeDecodeError, modelled as
none.  The UTF-8 decoder rejects overlong forms, surrogates and values above
U+10FFFF; the UTF-16 decoders reject odd-length input and lone surrogates.
Neither UTF-16 codec strips a byte-order mark (only the "utf-16" codec does,
and the code never uses it). -/

/-- One step of strict UTF-8 decoding: given the lead byte b and the bytes
after it, decode one scalar value and return it with the remaining bytes.
The lead-byte ranges and per-position continuation constraints (E0 excludes
overlongs, ED excludes surrogates, F0 excludes overlongs, F4 caps at
U+10FFFF) are exactly CPython's strict utf-8 decoder. -/
def utf8Step (b : Nat) (rest : List Nat) : Option (Char × List Nat) :=
  if b < 0x80 then some (Char.ofNat b, rest)
  else if 0xC2 ≤ b ∧ b ≤ 0xDF then
    match rest with
    | c1 :: rest1 =>
      if 0x80 ≤ c1 ∧ c1 ≤ 0xBF then
        some (Char.ofNat ((b - 0xC0) * 64 + (c1 - 0x80)), rest1)
      else none
    | [] => none
  else if 0xE0 ≤ b ∧ b ≤ 0xEF then
    match rest with
    | c1 :: c2 :: rest2 =>
      if ((b = 0xE0 ∧ 0xA0 ≤ c1 ∧ c1 ≤ 0xBF) ∨
          (b = 0xED ∧ 0x80 ≤ c1 ∧ c1 ≤ 0x9F) ∨
          (b ≠ 0xE0 ∧ b ≠ 0xED ∧ 0x80 ≤ c1 ∧ c1 ≤ 0xBF)) ∧
         0x80 ≤ c2 ∧ c2 ≤ 0xBF then
        some (Char.ofNat ((b - 0xE0) * 4096 + (c1 - 0x80) * 64 + (c2 - 0x80)), rest2)
      else none
    | _ => none
  else if 0xF0 ≤ b ∧ b ≤ 0xF4 then
    match rest with
    | c1 :: c2 :: c3 :: rest3 =>
      if ((b = 0xF0 ∧ 0x90 ≤ c1 ∧ c1 ≤ 0xBF) ∨
          (b = 0xF4 ∧ 0x80 ≤ c1 ∧ c1 ≤ 0x8F) ∨
          (b ≠ 0xF0 ∧ b ≠ 0xF4 ∧ 0x80 ≤ c1 ∧ c1 ≤ 0xBF)) ∧
         (0x80 ≤ c2 ∧ c2 ≤ 0xBF) ∧ (0x80 ≤ c3 ∧ c3 ≤ 0xBF) then
        some (Char.ofNat ((b - 0xF0) * 262144 + (c1 - 0x80) * 4096 +
                          (c2 - 0x80) * 64 + (c3 - 0x80)), rest3)
      else none
    | _ => none
  else none

/-- Strict UTF-8 decoding, one utf8Step per scalar, with explicit fuel so
the recursion is structural.  Every step consumes at least one byte, so
fuel equal to the byte count (as supplied by utf8Decode below) is never
exhausted before the input is. -/
def utf8DecodeFuel : Nat → List Nat → Option Text
  | _, [] => some []
  | 0, _ :: _ => none
  | fuel + 1, b :: rest =>
    match utf8Step b rest with
    | some (c, rest2) => (utf8DecodeFuel fuel rest2).map (fun t => c :: t)
    | none => none

/-- bytes.decode("utf-8"), strict: either the whole input decodes or the
result is none (fragments.py catches the UnicodeDecodeError). -/
def utf8Decode (data : List Nat) : Option Text := utf8DecodeFuel data.length data

/-- UTF-8 encoding of one unicode scalar value. -/
def utf8EncodeChar (c : Char) : List Nat :=
  let n := c.toNat
  if n < 0x80 then [n]
  else if n < 0x800 then [0xC0 + n / 64, 0x80 + n % 64]
  else if n < 0x10000 then [0xE0 + n / 4096, 0x80 + n / 64 % 64, 0x80 + n % 64]
  else [0xF0 + n / 262144, 0x80 + n / 4096 % 64, 0x80 + n / 64 % 64, 0x80 + n % 64]

/-- UTF-8 encoding of a text, used by fragments.py to map line slices back
to byte offsets and to hash normalized text. -/
def utf8Encode (t : Text) : List Nat := (t.map utf8EncodeChar).flatten

/-- Strict UTF-16 decoding, parameterised by the byte order: lo and hi pick
the low and high byte of each 16-bit unit out of a consecutive byte pair. -/
def utf16DecodeWith (mkUnit : Nat → Nat → Nat) : List Nat → Option Text
  | [] => some []
  | [_] => none
  | b0 :: b1 :: rest =>
    let u := mkUnit b0 b1
    if u < 0xD800 || 0xE000 ≤ u then
      (utf16DecodeWith mkUnit rest).map (fun t => Char.ofNat u :: t)
    else if u < 0xDC00 then
      match rest with
      | c0 :: c1 :: rest2 =>
        let v := mkUnit c0 c1
        if 0xDC00 ≤ v && v < 0xE000 then
          (utf16DecodeWith mkUnit rest2).map
            (fun t => Char.ofNat (0x10000 + (u - 0xD800) * 1024 + (v - 0xDC00)) :: t)
        else none
      | _ => none
    else none

/-- bytes.decode("utf-16-le"). -/
def utf16leDecode : List Nat → Option Text :=
  utf16DecodeWith (fun b0 b1 => b0 + 256 * b1)

/-- bytes.decode("utf-16-be"). -/
def utf16beDecode : List Nat → Option Text :=
  utf16DecodeWith (fun b0 b1 => 256 * b0 + b1)

/-- The decode cascade of fragments.py file_to_fragments: try UTF-8, then
UTF-16 little-endian, then UTF-16 big-endian; first success wins. -/
def decodeFile (data : List Nat) : Option Text :=
  match utf8Decode data with
  | some t => some t
  | none =>
    match utf16leDecode data with
    | some t => some t
    | none => utf16beDecode data

/-! ## Fragment extractor (src/assemble/fragments.py) -/

/-- The scanning loop of _split_into_paragraphs.  pos is the 0-based index of
the next line to examine, runStart the 0-based index where the current run of
non-blank lines began, and acc the lines of that run (the source keeps the
indices start and i into the full line list; acc equals lines[runStart:pos]).
A blank line closes the run, emitting (runStart+1, pos, "\n".join(run)); a
run still open at the end of the list is emitted the same way. -/
def splitParasAux : List Text → Nat → Nat → List Text → List (Nat × Nat × Text)
  | [], pos, runStart, acc =>
    if runStart < pos then [(runStart + 1, pos, intercalateNL acc)] else []
  | l :: rest, pos, runStart, acc =>
    if isBlank l then
      (if runStart < pos then [(runStart + 1, pos, intercalateNL acc)] else []) ++
        splitParasAux rest (pos + 1) (pos + 1) []
    else
      splitParasAux rest (pos + 1) runStart (acc ++ [l])

/-- fragments.py _split_into_paragraphs: fold newlines, split into lines, and
return (line_start, line_end, paragraph_text) per maximal run of non-blank
lines, with 1-based inclusive line numbers. -/
def split_into_paragraphs (full_text : Text) : List (Nat × Nat × Text) :=
  splitParasAux (splitNL (foldCR full_text)) 0 0 []

/-- Python f"frag_{idx:06d}": the index zero-padded to at least six digits. -/
def pad6 (n : Nat) : String :=
  let s := toString n
  ⟨List.replicate (6 - s.length) '0'⟩ ++ s

/-- Python enumerate(xs, start=n). -/
def enumerateFrom (n : Nat) : List α → List (Nat × α)
  | [] => []
  | a :: as => (n, a) :: enumerateFrom (n + 1) as

/-- Concatenation of byte strings, Python b"".join. -/
def concatBytes : List (List Nat) → List Nat
  | [] => []
  | b :: bs => b ++ concatBytes bs

/-- The byte_offsets table of file_to_fragments: starting from acc, the
cumulative byte lengths of the utf-8 re-encoded lines ([0] followed by one
running total per line). -/
def byteOffsets : List (List Nat) → Nat → List Nat
  | [], acc => [acc]
  | b :: bs, acc => acc :: byteOffsets bs (acc + b.length)

/-- The Fragment record of fragments.py.  Python's float confidence (0.70 by
default) is only ever carried through unchanged (no arithmetic is performed
on it anywhere), so it is modelled exactly as its number of hundredths. -/
structure Fragment where
  fragment_id : String
  path : String
  source_type : String
  line_start : Nat
  line_end : Nat
  byte_start : Nat
  byte_end : Nat
  mtime_iso : String
  confidence : Nat
  raw_sha256 : String
  content_sha256 : String
  text : Text
  trust : String
deriving DecidableEq, Repr

/-- The paragraph-to-Fragment construction inside file_to_fragments' loop:
1-based index idx and paragraph (line_start, line_end, text), with byte
offsets looked up in the prefix-sum table and both hashes computed. -/
def mkFragment (path mtime_iso source_type : String) (base_confidence : Nat)
    (utf8_lines : List (List Nat)) (byte_offsets : List Nat)
    (idx : Nat) (para : Nat × Nat × Text) : Fragment :=
  let ls := para.1
  let le := para.2.1
  let raw_slice := concatBytes ((utf8_lines.drop (ls - 1)).take (le - (ls - 1)))
  let norm := normalise_text para.2.2
  { fragment_id := "frag_" ++ pad6 idx
    path := path
    source_type := source_type
    line_start := ls
    line_end := le
    byte_start := byte_offsets.getD (ls - 1) 0
    byte_end := byte_offsets.getD le 0
    mtime_iso := mtime_iso
    confidence := base_confidence
    raw_sha256 := sha256_bytes raw_slice
    content_sha256 := sha256_bytes (utf8Encode norm)
    text := norm
    trust := "Recovered" }

/-- The post-decode body of file_to_fragments: split the decoded text into
paragraphs, re-encode every line (with its newline) as utf-8, build the byte
offset table, and emit one Fragment per paragraph, skipping paragraphs whose
normalized text is empty after stripping. -/
def fragmentsOfText (path mtime_iso source_type : String) (base_confidence : Nat)
    (text : Text) : List Fragment :=
  if text.isEmpty then [] else
  let paragraphs := split_into_paragraphs text
  let utf8_lines := (splitNL (foldCR text)).map (fun ln => utf8Encode (ln ++ ['\n']))
  let byte_offsets := byteOffsets utf8_lines 0
  ((enumerateFrom 1 paragraphs).map
      (fun p => mkFragment path mtime_iso source_type base_confidence utf8_lines byte_offsets p.1 p.2)).filter
    (fun f => !(pyStrip f.text).isEmpty)

/-- fragments.py file_to_fragments, taking the file's bytes as input: decode
with the cascade (an undecodable or empty file yields no fragments), then
extract the Fragments. -/
def file_to_fragments (path mtime_iso source_type : String) (base_confidence : Nat)
    (data : List Nat) : List Fragment :=
  let text := (decodeFile data).getD []
  if text.isEmpty then [] else
  fragmentsOfText path mtime_iso source_type base_confidence text

/-! ## Receipt generator (src/outputs/receipts.py) -/

/-- The llm sub-record of a receipt. -/
structure LlmBlock where
  used : Bool
  model : Option String
  tokens_in : Nat
  tokens_out : Nat
  duration_ms : Nat
deriving DecidableEq, Repr

/-- A receipt record as serialized by receipts.py (field "mtime" carries the
Fragment's mtime_iso; there is no text field). -/
structure Receipt where
  fragment_id : String
  source_type : String
  path : String
  line_start : Nat
  line_end : Nat
  byte_start : Nat
  byte_end : Nat
  mtime : String
  confidence : Nat
  raw_sha256 : String
  content_sha256 : String
  trust : String
  llm : LlmBlock
deriving DecidableEq, Repr

/-- The per-Fragment record built in fragments_to_receipts' loop: note that
source_type is the literal "file" (a comment in the source defers other
source types), and the llm block is the fixed default. -/
def fragment_to_receipt (f : Fragment) : Receipt :=
  { fragment_id := f.fragment_id
    source_type := "file"
    path := f.path
    line_start := f.line_start
    line_end := f.line_end
    byte_start := f.byte_start
    byte_end := f.byte_end
    mtime := f.mtime_iso
    confidence := f.confidence
    raw_sha256 := f.raw_sha256
    content_sha256 := f.content_sha256
    trust := f.trust
    llm := { used := false, model := none, tokens_in := 0, tokens_out := 0, duration_ms := 0 } }

/-- receipts.py fragments_to_receipts: the order-preserving projection of
Fragment records to receipts. -/
def fragments_to_receipts (fragments : List Fragment) : List Receipt :=
  fragments.map fragment_to_receipt

/-- Leading and trailing empty elements of a line list dropped; after
per-line rstripping, stripping "\n" from the joined text acts exactly like
this on the line list. -/
def trimEmpty (L : List Text) : List Text :=
  ((L.dropWhile List.isEmpty).reverse.dropWhile List.isEmpty).reverse

/-- The line sequence of a file made of paragraphs separated by single
blank lines: each paragraph is a list of lines, with one separator line
between consecutive paragraphs (spec-side shape for C1). -/
def sepJoin : List (List Text) → List Text → List Text
  | [], _ => []
  | [p], _ => p
  | p :: ps, b :: bs => p ++ b :: sepJoin ps bs
  | p :: ps, [] => p ++ sepJoin ps []

/-- The paragraph decomposition the spec expects for C1: with k lines
before it, a paragraph of n lines spans 1-based lines k+1 .. k+n, and the
next paragraph starts after one separator line. -/
def expectedParas : Nat → List (List Text) → List (Nat × Nat × Text)
  | _, [] => []
  | k, p :: ps => (k + 1, k + p.length, intercalateNL p) :: expectedParas (k + p.length + 1) ps

/-! ## Filesystem scanner (src/scan/walker.py)

The scanner is embedded over a model filesystem: a file is its path parts,
stat size, mtime string, probe sample (the first min(size, 4096) bytes) and
symlink flag; a directory is a list of entries in scandir order.  The model
covers the deterministic behaviour the claims are about.  Wall-clock time
(the time budget never fires in the model), OS-level stat/scandir errors
(absent), and hardlink aliasing of directories (the (dev, ino) seen-set
never fires on a filesystem that is a tree) are outside the model. -/

/-- A regular file of the model filesystem. -/
structure SimFile where
  parts : List String
  size : Nat
  mtime_iso : String
  sample : List Nat
  is_symlink : Bool
deriving DecidableEq, Repr

mutual
/-- A directory entry in scandir order: a regular file or a subdirectory. -/
inductive SimEntry : Type where
  | file (f : SimFile)
  | dir (entries : SimEntries)
/-- A directory's entry list (its own inductive so that all the walker's
recursions stay structural and kernel-reducible). -/
inductive SimEntries : Type where
  | nil
  | cons (e : SimEntry) (rest : SimEntries)
end

/-- Python Path.name: the final path component. -/
def fileName (f : SimFile) : Text :=
  (f.parts.getLast?.getD "").toList

/-- Python str.lower(), faithful on ASCII (the walker only ever compares
against ASCII name patterns). -/
def lowerChar (c : Char) : Char :=
  if 'A' ≤ c && c ≤ 'Z' then Char.ofNat (c.toNat + 32) else c

/-- Lowercasing of a text. -/
def toLowerL (l : Text) : Text :=
  l.map lowerChar

/-- Python s.endswith(pat). -/
def endsWithL (l pat : Text) : Bool :=
  pat.isSuffixOf l

/-- Python s.startswith(pat). -/
def startsWithL (l pat : Text) : Bool :=
  pat.isPrefixOf l

/-- Python sub in s: substring containment. -/
def containsSub (pat : Text) : Text → Bool
  | [] => pat.isEmpty
  | c :: rest => pat.isPrefixOf (c :: rest) || containsSub pat rest

/-- Python " ".join(parts). -/
def intercalateSp : List Text → Text
  | [] => []
  | [l] => l
  | l :: ls => l ++ ' ' :: intercalateSp ls

/-- Python Path.suffix: the extension of the final component, from its last
dot, empty when the dot is leading, trailing, or absent. -/
def pySuffix (name : Text) : Text :=
  match ((List.range name.length).filter (fun i => name.getD i ' ' == '.')).getLast? with
  | some i => if 0 < i ∧ i < name.length - 1 then name.drop i else []
  | none => []

/-- walker.py TEXT_EXTS. -/
def TEXT_EXTS : List Text :=
  [".txt".toList, ".md".toList, ".markdown".toList, ".rst".toList, ".json".toList,
   ".yaml".toList, ".yml".toList, ".toml".toList, ".log".toList, ".bak".toList,
   ".tmp".toList, ".swp".toList, ".md~".toList]

/-- walker.py _ext_allows_consideration: path.suffix.lower() in TEXT_EXTS. -/
def ext_allows_consideration (path_name : Text) : Bool :=
  TEXT_EXTS.contains (toLowerL (pySuffix path_name))

/-- walker.py _looks_like_text on the probe sample: reject an empty sample,
a NUL-heavy sample (count of zero bytes exceeding length // 16), or a sample
none of the three codecs accepts. -/
def looks_like_text (chunk : List Nat) : Bool :=
  if chunk.isEmpty then false
  else if chunk.length / 16 < chunk.count 0 then false
  else (utf8Decode chunk).isSome || (utf16leDecode chunk).isSome || (utf16beDecode chunk).isSome

/-- walker.py _is_cloud_placeholder, over the path parts and probe sample:
name-pattern heuristics, then the "mobile documents" substring check over
the space-joined lowercased parts combined with a failing text probe. -/
def is_cloud_placeholder (parts : List String) (sample : List Nat) : Bool :=
  let name := toLowerL (parts.getLast?.getD "").toList
  if endsWithL name ".icloud".toList then true
  else if endsWithL name ".cloud".toList || endsWithL name ".lnk".toList ||
      startsWithL name ".cloudf".toList then true
  else if containsSub "mobile documents".toList
        (intercalateSp (parts.map (fun p => toLowerL p.toList)))
      && !looks_like_text sample then true
  else false

/-- The outcome of the walker's per-file filter chain. -/
inductive ScanDecision : Type where
  | skippedSymlink
  | ignored
  | skippedCloud
  | skippedBinary
  | candidate
deriving DecidableEq, Repr

/-- The filter chain walk_candidates applies to each file entry, in source
order: symlink skip, extension pre-filter (no counter), cloud-placeholder
filter, text probe, then candidate emission. -/
def classifyEntry (follow_symlinks : Bool) (f : SimFile) : ScanDecision :=
  if !follow_symlinks && f.is_symlink then .skippedSymlink
  else if !ext_allows_consideration (fileName f) then .ignored
  else if is_cloud_placeholder f.parts f.sample then .skippedCloud
  else if !looks_like_text f.sample then .skippedBinary
  else .candidate

/-- The Candidate record yielded by walk_candidates. -/
structure Candidate where
  parts : List String
  size : Nat
  mtime_iso : String
deriving DecidableEq, Repr

/-- The walker's counters (the RunSummary minus elapsed_s, which is
wall-clock time and outside the model). -/
structure WalkState where
  total_files : Nat
  total_bytes_read : Nat
  skipped_cloud : Nat
  skipped_symlink : Nat
  skipped_binary : Nat
deriving DecidableEq, Repr

/-- The walker's initial counters. -/
def initialWalkState : WalkState :=
  { total_files := 0, total_bytes_read := 0, skipped_cloud := 0,
    skipped_symlink := 0, skipped_binary := 0 }

/-- The scandir loop body of walk_candidates over one directory's entries:
subdirectories are appended to the queue, files run the filter chain, and a
yielded candidate bumps total_files and total_bytes_read by
min(size, 4096); reaching max_bytes stops the entire traversal (the
MemoryError signal, the final Bool). -/
def walkEntries (follow_symlinks : Bool) (max_bytes : Nat) :
    SimEntries → List Candidate → List SimEntries → WalkState →
    List Candidate × List SimEntries × WalkState × Bool
  | .nil, cands, q, st => (cands, q, st, false)
  | .cons (.dir d) rest, cands, q, st =>
    walkEntries follow_symlinks max_bytes rest cands (q ++ [d]) st
  | .cons (.file f) rest, cands, q, st =>
    match classifyEntry follow_symlinks f with
    | .skippedSymlink =>
      walkEntries follow_symlinks max_bytes rest cands q
        { st with skipped_symlink := st.skipped_symlink + 1 }
    | .ignored => walkEntries follow_symlinks max_bytes rest cands q st
    | .skippedCloud =>
      walkEntries follow_symlinks max_bytes rest cands q
        { st with skipped_cloud := st.skipped_cloud + 1 }
    | .skippedBinary =>
      walkEntries follow_symlinks max_bytes rest cands q
        { st with skipped_binary := st.skipped_binary + 1 }
    | .candidate =>
      let st' := { st with total_files := st.total_files + 1,
                           total_bytes_read := st.total_bytes_read + min f.size 4096 }
      let cands' := cands ++ [{ parts := f.parts, size := f.size, mtime_iso := f.mtime_iso }]
      if max_bytes ≤ st'.total_bytes_read then (cands', q, st', true)
      else walkEntries follow_symlinks max_bytes rest cands' q st'

/-- The breadth-first queue loop of walk_candidates.  The fuel argument
bounds the number of dequeued directories; walk_candidates supplies fuel
exceeding the total directory count (each directory is dequeued at most
once, which is what makes the Python loop terminate), so the fuel-exhausted
branch is unreachable (walkQueue_fuel_irrelevant below). -/
def walkQueue (follow_symlinks : Bool) (max_bytes : Nat) :
    Nat → List SimEntries → List Candidate → WalkState → List Candidate × WalkState
  | 0, _, cands, st => (cands, st)
  | _ + 1, [], cands, st => (cands, st)
  | fuel + 1, d :: rest, cands, st =>
    let r := walkEntries follow_symlinks max_bytes d cands [] st
    if r.2.2.2 then (r.1, r.2.2.1)
    else walkQueue follow_symlinks max_bytes fuel (rest ++ r.2.1) r.1 r.2.2.1

mutual
/-- Structural size of an entry (counts one per file and per directory). -/
def entrySize : SimEntry → Nat
  | .file _ => 1
  | .dir d => 1 + entriesSize d
/-- Structural size of an entry list, at least one. -/
def entriesSize : SimEntries → Nat
  | .nil => 1
  | .cons e rest => entrySize e + entriesSize rest
end

/-- Total structural size of a directory queue. -/
def queueSize (q : List SimEntries) : Nat :=
  (q.map entriesSize).sum

/-- walker.py walk_candidates over the model filesystem: breadth-first from
the given roots, yielding the candidate stream and the final counters. -/
def walk_candidates (roots : List SimEntries) (max_bytes : Nat) (follow_symlinks : Bool) :
    List Candidate × WalkState :=
  walkQueue follow_symlinks max_bytes (queueSize roots + 1) roots [] initialWalkState

/-- The sampled-bytes total a candidate list accounts for:
min(size, 4096) summed over the candidates. -/
def sumMinSample (cs : List Candidate) : Nat :=
  (cs.map (fun c => min c.size 4096)).sum

/-! ## Command-line interface (src/cli.py) -/

/-- The observable outcome of one recover invocation: process exit code,
the status line printed to stdout, and the argparse usage-error message. -/
structure CliOutcome where
  exit_code : Nat
  stdout_line : Option String
  usage_error : Option String
deriving DecidableEq, Repr

/-- cli.py main, restricted to a recover invocation whose root exists (the
argparse plumbing for missing subcommand or nonexistent root is outside
this model): conflicting mode flags hit parser.error, which exits with
status 2 before any mode is resolved; otherwise the mode defaults to
strict unless only creative was passed, the status line is printed, and
the exit code is 0. -/
def recover_main (root : String) (strict creative : Bool) : CliOutcome :=
  if strict && creative then
    { exit_code := 2, stdout_line := none,
      usage_error := some "Cannot use both strict and creative modes" }
  else
    { exit_code := 0,
      stdout_line := some ("[kintsugi] starting recovery in " ++ root ++ " (mode: " ++
        (if strict || !creative then "strict" else "creative") ++ ")"),
      usage_error := none }

end Kintsugi

namespace Kintsugi

/-- FIPS 180-4 test vector: the digest of the empty message. -/
example : sha256_bytes [] = "e3b0c44298fc1c149afbf4c8996fb92427ae41e4649b934ca495991b7852b855" := by
  decide

/-- FIPS 180-4 test vector: the digest of "abc". -/
example : sha256_bytes [97, 98, 99] = "ba7816bf8f01cfea414140de5dae2223b00361a396177a9cb410ff61f20015ad" := by
  decide

/-! ## C9: CLI mode resolution -/

/-- C9: for every recover invocation, conflicting --strict --creative flags
hit the usage error "Cannot use both strict and creative modes" with a
non-zero exit and no resolved mode or status line; every other flag
combination resolves strict (default) or creative (--creative alone),
prints the status line naming the root and mode, and exits 0. -/
theorem c9_cli_mode_resolution (root : String) :
    recover_main root true true =
      { exit_code := 2, stdout_line := none,
        usage_error := some "Cannot use both strict and creative modes" } ∧
    (recover_main root true true).exit_code ≠ 0 ∧
    recover_main root true false =
      { exit_code := 0,
        stdout_line := some ("[kintsugi] starting recovery in " ++ root ++ " (mode: " ++ "strict" ++ ")"),
        usage_error := none } ∧
    recover_main root false false =
      { exit_code := 0,
        stdout_line := some ("[kintsugi] starting recovery in " ++ root ++ " (mode: " ++ "strict" ++ ")"),
        usage_error := none } ∧
    recover_main root false true =
      { exit_code := 0,
        stdout_line := some ("[kintsugi] starting recovery in " ++ root ++ " (mode: " ++ "creative" ++ ")"),
        usage_error := none } := by
  refine ⟨rfl, by simp [recover_main], rfl, rfl, rfl⟩

/-! ## C2: receipts as a projection of Fragments -/

/-- A Fragment whose source_type is not "file" and whose text is "x",
exhibiting the information the receipt projection discards. -/
def fragA : Fragment :=
  { fragment_id := "frag_000001", path := "/tmp/a.txt", source_type := "autosave",
    line_start := 1, line_end := 2, byte_start := 0, byte_end := 5,
    mtime_iso := "2024-01-01T00:00:00+0000", confidence := 70,
    raw_sha256 := "aa", content_sha256 := "bb", text := "x".toList, trust := "Recovered" }

/-- fragA with a different source_type and text, mapping to the same receipt. -/
def fragB : Fragment :=
  { fragA with source_type := "file", text := "y".toList }

/-- C2 counterexample: two distinct Fragments (differing in source_type and
text) produce identical receipts, so a Fragment is not recoverable from its
receipt: the receipt hardcodes source_type to "file" and carries no text
field.  This refutes the claim that every Fragment field, including
source_type, is recoverable. -/
theorem c2_lossless_counterexample :
    fragments_to_receipts [fragA] = fragments_to_receipts [fragB] ∧ fragA ≠ fragB := by
  decide

/-- C2 amended: the receipt is a pure function of its Fragment; every field
except source_type and text is copied verbatim (hence recoverable), the
receipt's source_type is the constant "file" whatever the Fragment's own
source_type, and the llm block is exactly
used=false/model=none/tokens_in=0/tokens_out=0/duration_ms=0 regardless of
the Fragment's field values. -/
theorem c2_receipt_projection (f : Fragment) :
    (fragment_to_receipt f).fragment_id = f.fragment_id ∧
    (fragment_to_receipt f).source_type = "file" ∧
    (fragment_to_receipt f).path = f.path ∧
    (fragment_to_receipt f).line_start = f.line_start ∧
    (fragment_to_receipt f).line_end = f.line_end ∧
    (fragment_to_receipt f).byte_start = f.byte_start ∧
    (fragment_to_receipt f).byte_end = f.byte_end ∧
    (fragment_to_receipt f).mtime = f.mtime_iso ∧
    (fragment_to_receipt f).confidence = f.confidence ∧
    (fragment_to_receipt f).raw_sha256 = f.raw_sha256 ∧
    (fragment_to_receipt f).content_sha256 = f.content_sha256 ∧
    (fragment_to_receipt f).trust = f.trust ∧
    (fragment_to_receipt f).llm =
      { used := false, model := none, tokens_in := 0, tokens_out := 0, duration_ms := 0 } ∧
    fragments_to_receipts [f] = [fragment_to_receipt f] := by
  refine ⟨rfl, rfl, rfl, rfl, rfl, rfl, rfl, rfl, rfl, rfl, rfl, rfl, rfl, rfl⟩

/-! ## C8: the decode cascade -/

/-- C8: file_to_fragments tries UTF-8, then UTF-16 LE, then UTF-16 BE, and
extracts from the first decode that succeeds; when all three fail it
returns the empty fragment list (total function, no error). -/
theorem c8_decode_cascade (p m st : String) (conf : Nat) (data : List Nat) :
    (∀ t, utf8Decode data = some t →
      file_to_fragments p m st conf data = fragmentsOfText p m st conf t) ∧
    (utf8Decode data = none → ∀ t, utf16leDecode data = some t →
      file_to_fragments p m st conf data = fragmentsOfText p m st conf t) ∧
    (utf8Decode data = none → utf16leDecode data = none → ∀ t, utf16beDecode data = some t →
      file_to_fragments p m st conf data = fragmentsOfText p m st conf t) ∧
    (utf8Decode data = none → utf16leDecode data = none → utf16beDecode data = none →
      file_to_fragments p m st conf data = []) := by
  unfold file_to_fragments decodeFile
  refine ⟨fun t h8 => ?_, fun h8 t hle => ?_, fun h8 hle t hbe => ?_, fun h8 hle hbe => ?_⟩
  · rw [h8]
    rcases t with _ | ⟨c, rest⟩ <;> simp [fragmentsOfText]
  · rw [h8, hle]
    rcases t with _ | ⟨c, rest⟩ <;> simp [fragmentsOfText]
  · rw [h8, hle, hbe]
    rcases t with _ | ⟨c, rest⟩ <;> simp [fragmentsOfText]
  · rw [h8, hle, hbe]
    simp

/-- C8 witness: the byte 0xFF is rejected by all three codecs (invalid UTF-8
lead byte, odd length for both UTF-16 orders), and the extractor returns the
empty list for it. -/
theorem c8_decode_cascade_witness :
    utf8Decode [255] = none ∧ utf16leDecode [255] = none ∧ utf16beDecode [255] = none ∧
    file_to_fragments "p" "m" "file" 70 [255] = [] := by
  refine ⟨by decide, by decide, by decide, ?_⟩
  exact (c8_decode_cascade "p" "m" "file" 70 [255]).2.2.2 (by decide) (by decide) (by decide)

/-! ## C3: the cloud-placeholder filter -/

/-- Unfolding of _is_cloud_placeholder to one Boolean expression. -/
theorem is_cloud_placeholder_eq (parts : List String) (sample : List Nat) :
    is_cloud_placeholder parts sample =
      (endsWithL (toLowerL (parts.getLast?.getD "").toList) ".icloud".toList ||
       endsWithL (toLowerL (parts.getLast?.getD "").toList) ".cloud".toList ||
       endsWithL (toLowerL (parts.getLast?.getD "").toList) ".lnk".toList ||
       startsWithL (toLowerL (parts.getLast?.getD "").toList) ".cloudf".toList ||
       (containsSub "mobile documents".toList
          (intercalateSp (parts.map (fun p => toLowerL p.toList))) &&
        !looks_like_text sample)) := by
  unfold is_cloud_placeholder
  cases hA : endsWithL (toLowerL (parts.getLast?.getD "").toList) ".icloud".toList <;>
    cases hB : endsWithL (toLowerL (parts.getLast?.getD "").toList) ".cloud".toList <;>
      cases hC : endsWithL (toLowerL (parts.getLast?.getD "").toList) ".lnk".toList <;>
        cases hD : startsWithL (toLowerL (parts.getLast?.getD "").toList) ".cloudf".toList <;>
          cases hE : containsSub "mobile documents".toList
              (intercalateSp (parts.map (fun p => toLowerL p.toList))) <;>
            cases hF : looks_like_text sample <;>
              simp_all

/-- Unfolding of _is_cloud_placeholder as a five-way disjunction. -/
theorem is_cloud_placeholder_iff (parts : List String) (sample : List Nat) :
    is_cloud_placeholder parts sample = true ↔
      (endsWithL (toLowerL (parts.getLast?.getD "").toList) ".icloud".toList = true ∨
       endsWithL (toLowerL (parts.getLast?.getD "").toList) ".cloud".toList = true ∨
       endsWithL (toLowerL (parts.getLast?.getD "").toList) ".lnk".toList = true ∨
       startsWithL (toLowerL (parts.getLast?.getD "").toList) ".cloudf".toList = true ∨
       (containsSub "mobile documents".toList
          (intercalateSp (parts.map (fun p => toLowerL p.toList))) = true ∧
        looks_like_text sample = false)) := by
  rw [is_cloud_placeholder_eq]
  simp only [Bool.or_eq_true, Bool.and_eq_true, Bool.not_eq_true']
  tauto

/-- Among files that pass the symlink and extension filters, the filter
chain lands on the cloud skip exactly when _is_cloud_placeholder accepts. -/
theorem classifyEntry_cloud_iff (follow_symlinks : Bool) (f : SimFile)
    (h1 : (!follow_symlinks && f.is_symlink) = false)
    (h2 : ext_allows_consideration (fileName f) = true) :
    classifyEntry follow_symlinks f = ScanDecision.skippedCloud ↔
      is_cloud_placeholder f.parts f.sample = true := by
  unfold classifyEntry
  rw [h1, h2]
  simp only [Bool.not_true, Bool.false_eq_true, if_false]
  by_cases hc : is_cloud_placeholder f.parts f.sample = true
  · simp [hc]
  · simp only [Bool.not_eq_true] at hc
    simp only [hc, Bool.false_eq_true, if_false]
    by_cases hl : looks_like_text f.sample <;> simp [hl, hc]

/-- C3 counterexample: a file named a.icloud satisfies the claim's condition
(lowercased name ends with .icloud) but the Scanner never counts it as
skipped_cloud: the extension pre-filter drops it first, because .icloud is
not in TEXT_EXTS, so no name matching the claimed .icloud/.cloud/.lnk
patterns can ever reach the cloud-placeholder filter. -/
theorem c3_cloud_filter_counterexample :
    endsWithL (toLowerL (fileName ⟨["r", "a.icloud"], 10, "m", [104, 105], false⟩))
        ".icloud".toList = true ∧
    classifyEntry false ⟨["r", "a.icloud"], 10, "m", [104, 105], false⟩ ≠
      ScanDecision.skippedCloud := by
  decide

/-- C3 amended: among files that reach the filter (not skipped as symlinks,
and with a TEXT_EXTS suffix), a file is excluded as a cloud placeholder if
and only if its lowercased name ends with .icloud, .cloud or .lnk, or starts
with .cloudf, or the space-joined lowercased path parts contain the
substring "mobile documents" (which adjacent parts such as a directory
mobile containing a directory documents also produce, not only a single
part equal to it) and the file fails the text probe. -/
theorem c3_cloud_filter (follow_symlinks : Bool) (f : SimFile)
    (h1 : (!follow_symlinks && f.is_symlink) = false)
    (h2 : ext_allows_consideration (fileName f) = true) :
    classifyEntry follow_symlinks f = ScanDecision.skippedCloud ↔
      (endsWithL (toLowerL (fileName f)) ".icloud".toList = true ∨
       endsWithL (toLowerL (fileName f)) ".cloud".toList = true ∨
       endsWithL (toLowerL (fileName f)) ".lnk".toList = true ∨
       startsWithL (toLowerL (fileName f)) ".cloudf".toList = true ∨
       (containsSub "mobile documents".toList
          (intercalateSp (f.parts.map (fun p => toLowerL p.toList))) = true ∧
        looks_like_text f.sample = false)) :=
  (classifyEntry_cloud_iff follow_symlinks f h1 h2).trans
    (is_cloud_placeholder_iff f.parts f.sample)

/-- C3 witness: a non-symlinked a.txt under a Mobile Documents directory
whose probe sample is all NUL bytes is excluded as a cloud placeholder. -/
theorem c3_cloud_filter_witness :
    ((!false && (false : Bool)) = false) ∧
    ext_allows_consideration
      (fileName ⟨["users", "Mobile Documents", "a.txt"], 3, "m", [0, 0, 0], false⟩) = true ∧
    (classifyEntry false ⟨["users", "Mobile Documents", "a.txt"], 3, "m", [0, 0, 0], false⟩ =
        ScanDecision.skippedCloud ↔
      (endsWithL (toLowerL (fileName ⟨["users", "Mobile Documents", "a.txt"], 3, "m", [0, 0, 0], false⟩))
          ".icloud".toList = true ∨
       endsWithL (toLowerL (fileName ⟨["users", "Mobile Documents", "a.txt"], 3, "m", [0, 0, 0], false⟩))
          ".cloud".toList = true ∨
       endsWithL (toLowerL (fileName ⟨["users", "Mobile Documents", "a.txt"], 3, "m", [0, 0, 0], false⟩))
          ".lnk".toList = true ∨
       startsWithL (toLowerL (fileName ⟨["users", "Mobile Documents", "a.txt"], 3, "m", [0, 0, 0], false⟩))
          ".cloudf".toList = true ∨
       (containsSub "mobile documents".toList
          (intercalateSp ((["users", "Mobile Documents", "a.txt"] : List String).map
            (fun p => toLowerL p.toList))) = true ∧
        looks_like_text [0, 0, 0] = false))) :=
  ⟨by decide, by decide,
    c3_cloud_filter false ⟨["users", "Mobile Documents", "a.txt"], 3, "m", [0, 0, 0], false⟩
      (by decide) (by decide)⟩

/-! ## Lemmas about the string primitives -/

/-- Characters of the folded text: a newline or an original character. -/
theorem mem_foldCR {c : Char} : ∀ {s : Text}, c ∈ foldCR s → c = '\n' ∨ c ∈ s := by
  intro s
  induction s using foldCR.induct with
  | case1 => simp [foldCR]
  | case2 rest ih =>
    simp only [foldCR, List.mem_cons]
    intro h
    rcases h with h | h
    · exact Or.inl h
    · rcases ih h with h | h <;> simp [h]
  | case3 rest _ ih =>
    simp only [foldCR, List.mem_cons]
    intro h
    rcases h with h | h
    · exact Or.inl h
    · rcases ih h with h | h <;> simp [h]
  | case4 c' rest _ _ ih =>
    simp only [foldCR, List.mem_cons]
    intro h
    rcases h with h | h
    · simp [h]
    · rcases ih h with h | h <;> simp [h]

/-- The folded text contains no carriage return. -/
theorem foldCR_no_cr : ∀ {s : Text}, '\r' ∉ foldCR s := by
  intro s
  induction s using foldCR.induct with
  | case1 => simp [foldCR]
  | case2 rest ih => simpa [foldCR] using ih
  | case3 rest _ ih => simpa [foldCR] using ih
  | case4 c' rest _ h2 ih =>
    simp only [foldCR, List.mem_cons, not_or]
    exact ⟨fun h => h2 h.symm, ih⟩

/-- Folding is the identity on CR-free text. -/
theorem foldCR_eq_self : ∀ {s : Text}, '\r' ∉ s → foldCR s = s := by
  intro s
  induction s using foldCR.induct with
  | case1 => intro _; rfl
  | case2 rest ih => intro h; exact absurd (List.mem_cons_self _ _) h
  | case3 rest _ ih => intro h; exact absurd (List.mem_cons_self _ _) h
  | case4 c' rest h1 h2 ih =>
    intro h
    rw [foldCR]
    · rw [ih (fun hm => h (List.mem_cons_of_mem _ hm))]
    · exact h1
    · exact h2

/-- splitNL never returns the empty list. -/
theorem splitNL_ne_nil : ∀ t : Text, splitNL t ≠ [] := by
  intro t
  cases t with
  | nil => simp [splitNL]
  | cons c rest =>
    by_cases h : c = '\n'
    · simp [splitNL, h]
    · simp only [splitNL, h, if_false]
      cases hs : splitNL rest <;> simp

/-- splitNL always produces a first line. -/
theorem splitNL_exists_cons (t : Text) : ∃ l0 ls, splitNL t = l0 :: ls := by
  cases hs : splitNL t with
  | nil => exact absurd hs (splitNL_ne_nil t)
  | cons l0 ls => exact ⟨l0, ls, rfl⟩

/-- splitNL of a text headed by a newline. -/
theorem splitNL_cons_nl (rest : Text) : splitNL ('\n' :: rest) = [] :: splitNL rest := by
  simp [splitNL]

/-- splitNL of a text headed by a non-newline character. -/
theorem splitNL_cons_ne {a : Char} (h : a ≠ '\n') (rest : Text) {l0 : Text} {ls : List Text}
    (hs : splitNL rest = l0 :: ls) : splitNL (a :: rest) = (a :: l0) :: ls := by
  simp only [splitNL, h, if_false, hs]

/-- Characters of a split line come from the split text. -/
theorem mem_of_mem_splitNL : ∀ {t : Text} {l : Text}, l ∈ splitNL t → ∀ {c : Char}, c ∈ l → c ∈ t := by
  intro t
  induction t with
  | nil =>
    intro l hl c hc
    simp [splitNL] at hl
    subst hl
    cases hc
  | cons a rest ih =>
    intro l hl c hc
    by_cases h : a = '\n'
    · subst h
      rw [splitNL_cons_nl, List.mem_cons] at hl
      rcases hl with rfl | hl
      · cases hc
      · exact List.mem_cons_of_mem _ (ih hl hc)
    · obtain ⟨l0, ls, hs⟩ := splitNL_exists_cons rest
      rw [splitNL_cons_ne h rest hs, List.mem_cons] at hl
      simp only [List.mem_cons]
      rcases hl with rfl | hl
      · simp only [List.mem_cons] at hc
        rcases hc with rfl | hc
        · exact Or.inl rfl
        · exact Or.inr (ih (hs ▸ List.mem_cons_self _ _) hc)
      · exact Or.inr (ih (hs ▸ List.mem_cons_of_mem _ hl) hc)

/-- Split lines contain no newline. -/
theorem no_nl_of_mem_splitNL : ∀ {t : Text} {l : Text}, l ∈ splitNL t → '\n' ∉ l := by
  intro t
  induction t with
  | nil =>
    intro l hl
    simp [splitNL] at hl
    simp [hl]
  | cons a rest ih =>
    intro l hl
    by_cases h : a = '\n'
    · subst h
      rw [splitNL_cons_nl, List.mem_cons] at hl
      rcases hl with rfl | hl
      · simp
      · exact ih hl
    · obtain ⟨l0, ls, hs⟩ := splitNL_exists_cons rest
      rw [splitNL_cons_ne h rest hs, List.mem_cons] at hl
      rcases hl with rfl | hl
      · simp only [List.mem_cons, not_or]
        exact ⟨fun hh => h hh.symm, ih (hs ▸ List.mem_cons_self _ _)⟩
      · exact ih (hs ▸ List.mem_cons_of_mem _ hl)

/-- Joining the split lines with newlines recovers the text. -/
theorem intercalateNL_splitNL : ∀ t : Text, intercalateNL (splitNL t) = t := by
  intro t
  induction t with
  | nil => rfl
  | cons a rest ih =>
    by_cases h : a = '\n'
    · subst h
      obtain ⟨l0, ls, hs⟩ := splitNL_exists_cons rest
      rw [hs] at ih
      rw [splitNL_cons_nl, hs]
      show '\n' :: intercalateNL (l0 :: ls) = '\n' :: rest
      exact congrArg ('\n' :: ·) ih
    · obtain ⟨l0, ls, hs⟩ := splitNL_exists_cons rest
      rw [hs] at ih
      rw [splitNL_cons_ne h rest hs]
      cases ls with
      | nil => exact congrArg (a :: ·) ih
      | cons l1 ls' =>
        show (a :: l0) ++ '\n' :: intercalateNL (l1 :: ls') = a :: rest
        rw [List.cons_append]
        exact congrArg (a :: ·) ih

/-- A newline-free text splits into the single line it is. -/
theorem splitNL_no_nl : ∀ {l : Text}, '\n' ∉ l → splitNL l = [l] := by
  intro l
  induction l with
  | nil => intro _; rfl
  | cons c rest ih =>
    intro h
    have hc : c ≠ '\n' := fun hh => h (hh ▸ List.mem_cons_self _ _)
    have hr : '\n' ∉ rest := fun hm => h (List.mem_cons_of_mem _ hm)
    exact splitNL_cons_ne hc rest (ih hr)

/-- Splitting off a leading newline-free line. -/
theorem splitNL_append_nl : ∀ {l : Text}, '\n' ∉ l → ∀ t : Text, splitNL (l ++ '\n' :: t) = l :: splitNL t := by
  intro l
  induction l with
  | nil => intro _ t; exact splitNL_cons_nl t
  | cons c rest ih =>
    intro h t
    have hc : c ≠ '\n' := fun hh => h (hh ▸ List.mem_cons_self _ _)
    have hr : '\n' ∉ rest := fun hm => h (List.mem_cons_of_mem _ hm)
    rw [List.cons_append]
    exact splitNL_cons_ne hc _ (ih hr t)

/-- Splitting the newline-join of newline-free lines recovers the lines. -/
theorem splitNL_intercalateNL : ∀ {L : List Text}, L ≠ [] → (∀ l ∈ L, '\n' ∉ l) →
    splitNL (intercalateNL L) = L := by
  intro L
  induction L with
  | nil => intro h; exact absurd rfl h
  | cons l0 ls ih =>
    intro _ hnl
    cases ls with
    | nil => exact splitNL_no_nl (hnl l0 (List.mem_cons_self _ _))
    | cons l1 ls' =>
      show splitNL (l0 ++ '\n' :: intercalateNL (l1 :: ls')) = l0 :: l1 :: ls'
      rw [splitNL_append_nl (hnl l0 (List.mem_cons_self _ _))]
      rw [ih (by simp) (fun l hl => hnl l (List.mem_cons_of_mem _ hl))]

/-- A character of a line is a character of the newline-join. -/
theorem mem_intercalateNL_of : ∀ {L : List Text} {l : Text}, l ∈ L → ∀ {c : Char}, c ∈ l →
    c ∈ intercalateNL L := by
  intro L
  induction L with
  | nil => intro l hl; cases hl
  | cons l0 ls ih =>
    intro l hl c hc
    rcases List.mem_cons.1 hl with rfl | hl
    · cases ls with
      | nil => exact hc
      | cons l1 ls' =>
        show c ∈ l ++ '\n' :: intercalateNL (l1 :: ls')
        exact List.mem_append_left _ hc
    · cases ls with
      | nil => cases hl
      | cons l1 ls' =>
        show c ∈ l0 ++ '\n' :: intercalateNL (l1 :: ls')
        exact List.mem_append_right _ (List.mem_cons_of_mem _ (ih hl hc))

/-- A character of the newline-join is a newline or a character of a line. -/
theorem mem_intercalateNL : ∀ {L : List Text} {c : Char}, c ∈ intercalateNL L →
    c = '\n' ∨ ∃ l ∈ L, c ∈ l := by
  intro L
  induction L with
  | nil => intro c h; cases h
  | cons l0 ls ih =>
    intro c h
    cases ls with
    | nil => exact Or.inr ⟨l0, List.mem_cons_self _ _, h⟩
    | cons l1 ls' =>
      rcases List.mem_append.1 h with h | h
      · exact Or.inr ⟨l0, List.mem_cons_self _ _, h⟩
      · rcases List.mem_cons.1 h with rfl | h
        · exact Or.inl rfl
        · rcases ih h with h | ⟨l, hl, hc⟩
          · exact Or.inl h
          · exact Or.inr ⟨l, List.mem_cons_of_mem _ hl, hc⟩

/-! ## Lemmas about stripping -/

/-- Elements surviving dropWhile were in the list. -/
theorem mem_of_mem_dropWhile {α : Type _} {p : α → Bool} : ∀ {l : List α} {c : α},
    c ∈ l.dropWhile p → c ∈ l := by
  intro l
  induction l with
  | nil => intro c h; cases h
  | cons a rest ih =>
    intro c h
    by_cases hp : p a  <;> simp only [List.dropWhile, hp] at h
    · exact List.mem_cons_of_mem _ (ih h)
    · exact h

/-- dropWhile drops everything exactly on an all-satisfying list. -/
theorem dropWhile_eq_nil_iff_all {α : Type _} {p : α → Bool} : ∀ {l : List α},
    l.dropWhile p = [] ↔ ∀ c ∈ l, p c = true := by
  intro l
  induction l with
  | nil => simp
  | cons a rest ih =>
    by_cases hp : p a
    · simp [List.dropWhile_cons, hp, ih]
    · simp only [List.dropWhile_cons, hp, if_false, Bool.false_eq_true]
      constructor
      · intro h; exact absurd h (List.cons_ne_nil _ _)
      · intro h; exact absurd (h a (List.mem_cons_self _ _)) (by simpa using hp)

/-- An element failing the predicate survives dropWhile. -/
theorem mem_dropWhile_of_mem {α : Type _} {p : α → Bool} : ∀ {l : List α} {c : α},
    c ∈ l → p c = false → c ∈ l.dropWhile p := by
  intro l
  induction l with
  | nil => intro c h; cases h
  | cons a rest ih =>
    intro c h hc
    by_cases hp : p a <;> simp only [List.dropWhile, hp]
    · rcases List.mem_cons.1 h with rfl | h
      · rw [hc] at hp; cases hp
      · exact ih h hc
    · exact h

/-- The head surviving dropWhile fails the predicate. -/
theorem head_dropWhile_not {α : Type _} {p : α → Bool} : ∀ {l : List α} {a : α},
    (l.dropWhile p).head? = some a → p a = false := by
  intro l
  induction l with
  | nil => intro a h; cases h
  | cons b rest ih =>
    intro a h
    by_cases hp : p b <;> simp only [List.dropWhile, hp] at h
    · exact ih h
    · cases h; simpa using hp

/-- dropWhile is the identity when the head fails the predicate. -/
theorem dropWhile_eq_self_of_head {α : Type _} {p : α → Bool} : ∀ {l : List α},
    (∀ a, l.head? = some a → p a = false) → l.dropWhile p = l := by
  intro l h
  cases l with
  | nil => rfl
  | cons a rest => simp [List.dropWhile_cons, h a rfl]

/-- pyStrip drops everything exactly on all-whitespace text. -/
theorem pyStrip_eq_nil_iff : ∀ {l : Text}, pyStrip l = [] ↔ ∀ c ∈ l, pyIsSpace c = true := by
  intro l
  constructor
  · intro h c hc
    by_cases hsp : pyIsSpace c = true
    · exact hsp
    · exfalso
      have h1 : c ∈ l.dropWhile pyIsSpace := mem_dropWhile_of_mem hc (by simpa using hsp)
      have h0 : (l.dropWhile pyIsSpace).reverse.dropWhile pyIsSpace = [] := by
        have h2 := congrArg List.reverse h
        unfold pyStrip at h2
        simpa using h2
      exact hsp (dropWhile_eq_nil_iff_all.1 h0 c (List.mem_reverse.2 h1))
  · intro h
    have h1 : l.dropWhile pyIsSpace = [] := dropWhile_eq_nil_iff_all.2 h
    simp [pyStrip, h1]

/-- A blank line is exactly an all-whitespace line. -/
theorem isBlank_iff_all : ∀ {l : Text}, isBlank l = true ↔ ∀ c ∈ l, pyIsSpace c = true := by
  intro l
  rw [isBlank, List.isEmpty_iff]
  exact pyStrip_eq_nil_iff

/-- A non-blank line contains a non-whitespace character. -/
theorem isBlank_eq_false_iff : ∀ {l : Text}, isBlank l = false ↔ ∃ c ∈ l, pyIsSpace c = false := by
  intro l
  rw [← Bool.not_eq_true, isBlank_iff_all]
  simp

/-- Characters of the rstripped line come from the line. -/
theorem mem_of_mem_pyRstrip : ∀ {l : Text} {c : Char}, c ∈ pyRstrip l → c ∈ l := by
  intro l c h
  unfold pyRstrip at h
  have h1 := List.mem_reverse.1 h
  have h2 := mem_of_mem_dropWhile h1
  exact List.mem_reverse.1 h2

/-- A non-whitespace character survives rstripping. -/
theorem mem_pyRstrip_of_mem : ∀ {l : Text} {c : Char}, c ∈ l → pyIsSpace c = false →
    c ∈ pyRstrip l := by
  intro l c h hc
  unfold pyRstrip
  exact List.mem_reverse.2 (mem_dropWhile_of_mem (List.mem_reverse.2 h) hc)

/-- rstrip is idempotent. -/
theorem pyRstrip_idem (l : Text) : pyRstrip (pyRstrip l) = pyRstrip l := by
  unfold pyRstrip
  rw [List.reverse_reverse, List.dropWhile_idempotent]

/-- Characters of the newline-stripped text come from the text. -/
theorem mem_of_mem_stripNL : ∀ {t : Text} {c : Char}, c ∈ stripNL t → c ∈ t := by
  intro t c h
  unfold stripNL at h
  have h1 := List.mem_reverse.1 h
  have h2 := mem_of_mem_dropWhile h1
  have h3 := List.mem_reverse.1 h2
  exact mem_of_mem_dropWhile h3

/-- A non-newline character survives newline-stripping. -/
theorem mem_stripNL_of_mem : ∀ {t : Text} {c : Char}, c ∈ t → c ≠ '\n' → c ∈ stripNL t := by
  intro t c h hc
  unfold stripNL
  have hb : (c == '\n') = false := by simpa using hc
  exact List.mem_reverse.2 (mem_dropWhile_of_mem (List.mem_reverse.2 (mem_dropWhile_of_mem h hb)) hb)

/-! ## Lemmas for normalization idempotence -/

/-- Elements of the trimmed list come from the list. -/
theorem trimEmpty_subset : ∀ {L : List Text} {l : Text}, l ∈ trimEmpty L → l ∈ L := by
  intro L l h
  unfold trimEmpty at h
  have h1 := List.mem_reverse.1 h
  have h2 := mem_of_mem_dropWhile h1
  have h3 := List.mem_reverse.1 h2
  exact mem_of_mem_dropWhile h3

/-- The last element after trimming is non-empty. -/
theorem trimEmpty_getLast?_not : ∀ {L : List Text} {l : Text},
    (trimEmpty L).getLast? = some l → l.isEmpty = false := by
  intro L l h
  unfold trimEmpty at h
  rw [List.getLast?_reverse] at h
  exact head_dropWhile_not h

/-- The last entry of an append with nonempty right part. -/
theorem getLast?_append_right {α : Type _} (t X : List α) (h : X ≠ []) :
    (t ++ X).getLast? = X.getLast? := by
  rw [← List.head?_reverse, List.reverse_append, ← List.head?_reverse]
  cases hrv : X.reverse with
  | nil => exact absurd (by simpa using congrArg List.reverse hrv) h
  | cons a r => rw [List.cons_append]; rfl

/-- The first element after trimming is non-empty. -/
theorem trimEmpty_head?_not : ∀ {L : List Text} {l : Text},
    (trimEmpty L).head? = some l → l.isEmpty = false := by
  intro L l h
  unfold trimEmpty at h
  rw [List.head?_reverse] at h
  obtain ⟨t, ht⟩ :=
    List.dropWhile_suffix (l := (L.dropWhile List.isEmpty).reverse) (p := List.isEmpty)
  have hne : (L.dropWhile List.isEmpty).reverse.dropWhile List.isEmpty ≠ [] := by
    intro hnil
    rw [hnil] at h
    cases h
  have hgl : (L.dropWhile List.isEmpty).reverse.getLast? = some l := by
    rw [← ht, getLast?_append_right _ _ hne]
    exact h
  rw [List.getLast?_reverse] at hgl
  exact head_dropWhile_not hgl

/-- Trimming is the identity when both ends are non-empty lines. -/
theorem trimEmpty_eq_self : ∀ {L : List Text},
    (∀ l, L.head? = some l → l.isEmpty = false) →
    (∀ l, L.getLast? = some l → l.isEmpty = false) →
    trimEmpty L = L := by
  intro L h1 h2
  unfold trimEmpty
  rw [dropWhile_eq_self_of_head h1]
  rw [dropWhile_eq_self_of_head (by
    intro a ha
    rw [List.head?_reverse] at ha
    exact h2 a ha)]
  exact List.reverse_reverse L

/-- Joining with a final extra line. -/
theorem intercalateNL_append_single : ∀ {A : List Text}, A ≠ [] → ∀ x : Text,
    intercalateNL (A ++ [x]) = intercalateNL A ++ '\n' :: x := by
  intro A
  induction A with
  | nil => intro h; exact absurd rfl h
  | cons a A' ih =>
    intro _ x
    cases A' with
    | nil => rfl
    | cons b A'' =>
      show a ++ '\n' :: intercalateNL ((b :: A'') ++ [x]) =
        (a ++ '\n' :: intercalateNL (b :: A'')) ++ '\n' :: x
      rw [ih (by simp) x, List.append_assoc, List.cons_append]

/-- Reversing a newline-join reverses the lines and each line. -/
theorem intercalateNL_reverse : ∀ {L : List Text},
    (intercalateNL L).reverse = intercalateNL ((L.map List.reverse).reverse) := by
  intro L
  induction L with
  | nil => rfl
  | cons l0 ls ih =>
    cases ls with
    | nil => rfl
    | cons l1 ls' =>
      show (l0 ++ '\n' :: intercalateNL (l1 :: ls')).reverse = _
      rw [List.reverse_append, List.reverse_cons, ih, List.append_assoc,
        List.singleton_append]
      rw [← intercalateNL_append_single (by simp) l0.reverse]
      simp [List.map_cons, List.reverse_cons]

/-- Dropping leading newlines of a join drops leading empty lines. -/
theorem dropWhile_nl_intercalateNL : ∀ {L : List Text}, (∀ l ∈ L, '\n' ∉ l) →
    (intercalateNL L).dropWhile (· == '\n') = intercalateNL (L.dropWhile List.isEmpty) := by
  intro L
  induction L with
  | nil => intro _; rfl
  | cons l0 ls ih =>
    intro h
    cases l0 with
    | nil =>
      cases ls with
      | nil => rfl
      | cons l1 ls' =>
        show (([] : Text) ++ '\n' :: intercalateNL (l1 :: ls')).dropWhile (· == '\n') = _
        rw [List.nil_append, List.dropWhile_cons]
        simp only [beq_self_eq_true, if_true]
        rw [ih (fun l hl => h l (List.mem_cons_of_mem _ hl))]
        rfl
    | cons c l0' =>
      have hmem := h (c :: l0') (List.mem_cons_self _ _)
      have hne : c ≠ '\n' := by
        intro hh
        exact hmem (by rw [hh]; exact List.mem_cons_self _ _)
      have hc : (c == '\n') = false := by simpa using hne
      cases ls with
      | nil =>
        show (c :: l0').dropWhile (· == '\n') = _
        rw [List.dropWhile_cons]
        simp only [hc, Bool.false_eq_true, if_false]
        rfl
      | cons l1 ls' =>
        show ((c :: l0') ++ '\n' :: intercalateNL (l1 :: ls')).dropWhile (· == '\n') = _
        rw [List.cons_append, List.dropWhile_cons]
        simp only [hc, Bool.false_eq_true, if_false]
        rfl

/-- The reverse of a list is empty exactly when the list is. -/
theorem isEmpty_reverse (l : Text) : l.reverse.isEmpty = l.isEmpty := by
  cases l <;> simp

/-- dropWhile isEmpty commutes with reversing every line. -/
theorem dropWhile_isEmpty_map_reverse : ∀ Z : List Text,
    List.dropWhile List.isEmpty (Z.map List.reverse) =
      (List.dropWhile List.isEmpty Z).map List.reverse := by
  intro Z
  induction Z with
  | nil => rfl
  | cons a z ih =>
    by_cases ha : a.isEmpty = true
    · have h2 : (a.reverse).isEmpty = true := by rw [isEmpty_reverse]; exact ha
      simp only [List.map_cons, List.dropWhile_cons, h2, ha, if_true, ih]
    · have ha' : a.isEmpty = false := by simpa using ha
      have h2 : (a.reverse).isEmpty = false := by rw [isEmpty_reverse]; exact ha'
      simp only [List.map_cons, List.dropWhile_cons, h2, ha', Bool.false_eq_true, if_false]

/-- Stripping newlines off a join of newline-free lines trims the empty
boundary lines. -/
theorem stripNL_intercalateNL : ∀ {L : List Text}, (∀ l ∈ L, '\n' ∉ l) →
    stripNL (intercalateNL L) = intercalateNL (trimEmpty L) := by
  intro L h
  unfold stripNL trimEmpty
  rw [dropWhile_nl_intercalateNL h]
  have h1 : ∀ l ∈ L.dropWhile List.isEmpty, '\n' ∉ l :=
    fun l hl => h l (mem_of_mem_dropWhile hl)
  rw [intercalateNL_reverse]
  have h2 : ∀ l ∈ ((L.dropWhile List.isEmpty).map List.reverse).reverse, '\n' ∉ l := by
    intro l hl hc
    rw [List.mem_reverse] at hl
    obtain ⟨y, hy, rfl⟩ := List.mem_map.1 hl
    exact h1 y hy (List.mem_reverse.1 hc)
  rw [dropWhile_nl_intercalateNL h2]
  rw [intercalateNL_reverse]
  congr 1
  have hmr : ((L.dropWhile List.isEmpty).map List.reverse).reverse =
      (L.dropWhile List.isEmpty).reverse.map List.reverse := by
    simp
  rw [hmr, dropWhile_isEmpty_map_reverse, List.map_map]
  have hrr : (List.reverse ∘ List.reverse : Text → Text) = id :=
    funext fun l => List.reverse_reverse l
  rw [hrr, List.map_id]

/-- Mapping a function that fixes every element is the identity. -/
theorem map_eq_self_of_forall {α : Type _} {f : α → α} : ∀ {l : List α},
    (∀ a ∈ l, f a = a) → l.map f = l := by
  intro l
  induction l with
  | nil => intro _; rfl
  | cons a rest ih =>
    intro h
    rw [List.map_cons, h a (List.mem_cons_self _ _),
      ih (fun b hb => h b (List.mem_cons_of_mem _ hb))]

/-! ## C5: normalization idempotence -/

/-- C5: _normalise_text is idempotent: folding CRLF/CR to newline,
rstripping every line and stripping boundary newline characters, applied
twice, equals one application, for every text. -/
theorem c5_normalise_idempotent (s : Text) :
    normalise_text (normalise_text s) = normalise_text s := by
  have hM0nl : ∀ l ∈ (splitNL (foldCR s)).map pyRstrip, '\n' ∉ l := by
    intro l hl hc
    obtain ⟨y, hy, rfl⟩ := List.mem_map.1 hl
    exact no_nl_of_mem_splitNL hy (mem_of_mem_pyRstrip hc)
  have hN : normalise_text s = intercalateNL (trimEmpty ((splitNL (foldCR s)).map pyRstrip)) := by
    unfold normalise_text
    exact stripNL_intercalateNL hM0nl
  have hsub : ∀ l ∈ trimEmpty ((splitNL (foldCR s)).map pyRstrip),
      l ∈ (splitNL (foldCR s)).map pyRstrip := fun l hl => trimEmpty_subset hl
  have hM'nl : ∀ l ∈ trimEmpty ((splitNL (foldCR s)).map pyRstrip), '\n' ∉ l :=
    fun l hl => hM0nl l (hsub l hl)
  have hM'rs : ∀ l ∈ trimEmpty ((splitNL (foldCR s)).map pyRstrip), pyRstrip l = l := by
    intro l hl
    obtain ⟨y, _, rfl⟩ := List.mem_map.1 (hsub l hl)
    exact pyRstrip_idem y
  have hNnocr : '\r' ∉ normalise_text s := by
    rw [hN]
    intro hc
    rcases mem_intercalateNL hc with h | ⟨l, hl, hcl⟩
    · exact absurd h (by decide)
    · obtain ⟨y, hy, rfl⟩ := List.mem_map.1 (hsub l hl)
      exact foldCR_no_cr (mem_of_mem_splitNL hy (mem_of_mem_pyRstrip hcl))
  by_cases hM' : trimEmpty ((splitNL (foldCR s)).map pyRstrip) = []
  · rw [hN, hM']
    rfl
  · conv_lhs => rw [hN]
    show stripNL (intercalateNL ((splitNL (foldCR
        (intercalateNL (trimEmpty ((splitNL (foldCR s)).map pyRstrip))))).map pyRstrip)) = _
    rw [foldCR_eq_self (by rw [← hN]; exact hNnocr)]
    rw [splitNL_intercalateNL hM' hM'nl]
    have hmapid : (trimEmpty ((splitNL (foldCR s)).map pyRstrip)).map pyRstrip =
        trimEmpty ((splitNL (foldCR s)).map pyRstrip) := by
      exact map_eq_self_of_forall hM'rs
    rw [hmapid]
    rw [stripNL_intercalateNL hM'nl]
    rw [trimEmpty_eq_self (fun l hl => trimEmpty_head?_not hl)
      (fun l hl => trimEmpty_getLast?_not hl)]
    exact hN.symm

/-! ## C6: fragments are never blank -/

/-- The paragraph scanner emits nothing on all-blank lines when no run is
open. -/
theorem splitParasAux_all_blank : ∀ (lines : List Text), (∀ l ∈ lines, isBlank l = true) →
    ∀ pos, splitParasAux lines pos pos [] = [] := by
  intro lines
  induction lines with
  | nil =>
    intro _ pos
    simp [splitParasAux]
  | cons l rest ih =>
    intro h pos
    have hl : isBlank l = true := h l (List.mem_cons_self _ _)
    simp only [splitParasAux, hl, if_true, Nat.lt_irrefl, if_false, List.nil_append]
    exact ih (fun x hx => h x (List.mem_cons_of_mem _ hx)) (pos + 1)

/-- C6: every Fragment returned by file_to_fragments has text that is
non-empty and not whitespace-only (the emptiness filter guarantees it), and
a file whose decoded content is whitespace-only yields zero Fragments. -/
theorem c6_fragments_nonblank (p m st : String) (conf : Nat) (data : List Nat) :
    (∀ f ∈ file_to_fragments p m st conf data, (pyStrip f.text).isEmpty = false) ∧
    (∀ t, decodeFile data = some t → (∀ c ∈ t, pyIsSpace c = true) →
      file_to_fragments p m st conf data = []) := by
  constructor
  · intro f hf
    unfold file_to_fragments at hf
    by_cases he : ((decodeFile data).getD []).isEmpty = true
    · rw [if_pos he] at hf
      cases hf
    · rw [if_neg he] at hf
      unfold fragmentsOfText at hf
      by_cases he2 : ((decodeFile data).getD []).isEmpty = true
      · exact absurd he2 he
      · rw [if_neg he2] at hf
        have hpred := (List.mem_filter.1 hf).2
        simpa using hpred
  · intro t hdec hws
    unfold file_to_fragments
    rw [hdec]
    by_cases ht : (t : Text).isEmpty = true
    · rw [Option.getD_some, if_pos ht]
    · rw [Option.getD_some, if_neg ht]
      have hblank : ∀ l ∈ splitNL (foldCR t), isBlank l = true := by
        intro l hl
        rw [isBlank_iff_all]
        intro c hc
        rcases mem_foldCR (mem_of_mem_splitNL hl hc) with h | h
        · rw [h]; decide
        · exact hws c h
      have hparas : split_into_paragraphs t = [] := by
        unfold split_into_paragraphs
        exact splitParasAux_all_blank _ hblank 0
      unfold fragmentsOfText
      rw [if_neg ht, hparas]
      rfl

/-- C6 witness: the five bytes of "  \n\n " decode (as UTF-8) to
whitespace-only text and produce zero fragments. -/
theorem c6_fragments_nonblank_witness :
    decodeFile [32, 32, 10, 10, 32] = some [' ', ' ', '\n', '\n', ' '] ∧
    (∀ c ∈ ([' ', ' ', '\n', '\n', ' '] : Text), pyIsSpace c = true) ∧
    file_to_fragments "p" "m" "file" 70 [32, 32, 10, 10, 32] = [] := by
  refine ⟨by decide, by decide, ?_⟩
  exact (c6_fragments_nonblank "p" "m" "file" 70 [32, 32, 10, 10, 32]).2
    [' ', ' ', '\n', '\n', ' '] (by decide) (by decide)

/-! ## The paragraph scanner: bounds, content and ordering -/

/-- Dropping the length of a left append piece plus n. -/
theorem drop_append_plus {α : Type _} : ∀ (a b : List α) (n : Nat),
    (a ++ b).drop (a.length + n) = b.drop n := by
  intro a
  induction a with
  | nil => intro b n; simp
  | cons x a' ih =>
    intro b n
    show ((x :: (a' ++ b)).drop (a'.length + 1 + n)) = b.drop n
    have h : a'.length + 1 + n = (a'.length + n) + 1 := by omega
    rw [h, List.drop_succ_cons]
    exact ih b n

/-- The slice named by a paragraph emitted from the current run is the run. -/
theorem emit_slice (pos runStart : Nat) (acc rest : List Text)
    (hlen : runStart + acc.length = pos) (hlt : runStart < pos) :
    ((acc ++ rest).drop (runStart + 1 - 1 - runStart)).take (pos + 1 - (runStart + 1)) = acc := by
  have h1 : runStart + 1 - 1 - runStart = 0 := by omega
  have h2 : pos + 1 - (runStart + 1) = acc.length := by omega
  rw [h1, h2, List.drop_zero, List.take_append_of_le_length (le_refl _), List.take_length]

/-- Soundness of the paragraph scanner: every emitted paragraph (s, e, txt)
satisfies runStart+1 <= s <= e <= pos + number of remaining lines, its text
is the newline-join of the slice of lines it names (indices taken in the
virtual list acc ++ lines that starts at position runStart), that slice is
nonempty, and all its lines are non-blank. -/
theorem splitParasAux_mem : ∀ (lines : List Text) (pos runStart : Nat) (acc : List Text),
    runStart + acc.length = pos →
    (∀ l ∈ acc, isBlank l = false) →
    ∀ q ∈ splitParasAux lines pos runStart acc,
      runStart + 1 ≤ q.1 ∧ q.1 ≤ q.2.1 ∧ q.2.1 ≤ pos + lines.length ∧
      q.2.2 = intercalateNL (((acc ++ lines).drop (q.1 - 1 - runStart)).take (q.2.1 + 1 - q.1)) ∧
      ((acc ++ lines).drop (q.1 - 1 - runStart)).take (q.2.1 + 1 - q.1) ≠ [] ∧
      (∀ l ∈ ((acc ++ lines).drop (q.1 - 1 - runStart)).take (q.2.1 + 1 - q.1), isBlank l = false) := by
  intro lines
  induction lines with
  | nil =>
    intro pos runStart acc hlen hacc q hq
    simp only [splitParasAux] at hq
    by_cases hlt : runStart < pos
    · rw [if_pos hlt] at hq
      rcases List.mem_cons.1 hq with rfl | hq
      · have hanil : acc ≠ [] := by
          intro hnil
          rw [hnil] at hlen
          simp at hlen
          omega
        refine ⟨?_, ?_, ?_, ?_, ?_, ?_⟩
        · show runStart + 1 ≤ runStart + 1
          exact le_refl _
        · show runStart + 1 ≤ pos
          omega
        · show pos ≤ pos + ([] : List Text).length
          simp
        · show intercalateNL acc =
            intercalateNL (((acc ++ []).drop (runStart + 1 - 1 - runStart)).take (pos + 1 - (runStart + 1)))
          rw [emit_slice pos runStart acc [] hlen hlt]
        · show ((acc ++ []).drop (runStart + 1 - 1 - runStart)).take (pos + 1 - (runStart + 1)) ≠ []
          rw [emit_slice pos runStart acc [] hlen hlt]
          exact hanil
        · show ∀ l ∈ ((acc ++ []).drop (runStart + 1 - 1 - runStart)).take (pos + 1 - (runStart + 1)),
            isBlank l = false
          rw [emit_slice pos runStart acc [] hlen hlt]
          exact hacc
      · cases hq
    · rw [if_neg hlt] at hq
      cases hq
  | cons l rest ih =>
    intro pos runStart acc hlen hacc q hq
    simp only [splitParasAux] at hq
    by_cases hb : isBlank l = true
    · rw [if_pos hb] at hq
      rcases List.mem_append.1 hq with hq | hq
      · by_cases hlt : runStart < pos
        · rw [if_pos hlt] at hq
          rcases List.mem_cons.1 hq with rfl | hq
          · have hanil : acc ≠ [] := by
              intro hnil
              rw [hnil] at hlen
              simp at hlen
              omega
            refine ⟨?_, ?_, ?_, ?_, ?_, ?_⟩
            · show runStart + 1 ≤ runStart + 1
              exact le_refl _
            · show runStart + 1 ≤ pos
              omega
            · show pos ≤ pos + (l :: rest).length
              simp
            · show intercalateNL acc = intercalateNL
                (((acc ++ l :: rest).drop (runStart + 1 - 1 - runStart)).take (pos + 1 - (runStart + 1)))
              rw [emit_slice pos runStart acc (l :: rest) hlen hlt]
            · show ((acc ++ l :: rest).drop (runStart + 1 - 1 - runStart)).take (pos + 1 - (runStart + 1)) ≠ []
              rw [emit_slice pos runStart acc (l :: rest) hlen hlt]
              exact hanil
            · show ∀ x ∈ ((acc ++ l :: rest).drop (runStart + 1 - 1 - runStart)).take
                  (pos + 1 - (runStart + 1)), isBlank x = false
              rw [emit_slice pos runStart acc (l :: rest) hlen hlt]
              exact hacc
          · cases hq
        · rw [if_neg hlt] at hq
          cases hq
      · obtain ⟨h1, h2, h3, h4, h5, h6⟩ := ih (pos + 1) (pos + 1) [] (by simp) (by simp) q hq
        rw [List.nil_append] at h4 h5 h6
        have hidx : q.1 - 1 - runStart = acc.length + (1 + (q.1 - 1 - (pos + 1))) := by omega
        have hdropeq : (acc ++ l :: rest).drop (q.1 - 1 - runStart) =
            rest.drop (q.1 - 1 - (pos + 1)) := by
          rw [hidx, drop_append_plus]
          show (l :: rest).drop (1 + (q.1 - 1 - (pos + 1))) = rest.drop (q.1 - 1 - (pos + 1))
          have h : 1 + (q.1 - 1 - (pos + 1)) = (q.1 - 1 - (pos + 1)) + 1 := by omega
          rw [h, List.drop_succ_cons]
        refine ⟨by omega, h2, ?_, ?_, ?_, ?_⟩
        · simp only [List.length_cons]
          omega
        · rw [hdropeq]
          exact h4
        · rw [hdropeq]
          exact h5
        · rw [hdropeq]
          exact h6
    · rw [if_neg hb] at hq
      have hacc' : ∀ x ∈ acc ++ [l], isBlank x = false := by
        intro x hx
        rcases List.mem_append.1 hx with hx | hx
        · exact hacc x hx
        · rcases List.mem_cons.1 hx with rfl | hx
          · simpa using hb
          · cases hx
      obtain ⟨h1, h2, h3, h4, h5, h6⟩ :=
        ih (pos + 1) runStart (acc ++ [l]) (by simp; omega) hacc' q hq
      rw [List.append_assoc, List.singleton_append] at h4 h5 h6
      refine ⟨h1, h2, ?_, h4, h5, h6⟩
      simp only [List.length_cons]
      omega

/-- Emitted paragraphs are separated: each ends at least two lines before
the next begins (a blank boundary line lies between them). -/
theorem splitParasAux_pairwise : ∀ (lines : List Text) (pos runStart : Nat) (acc : List Text),
    runStart + acc.length = pos →
    (∀ l ∈ acc, isBlank l = false) →
    List.Pairwise (fun q1 q2 : Nat × Nat × Text => q1.2.1 + 2 ≤ q2.1)
      (splitParasAux lines pos runStart acc) := by
  intro lines
  induction lines with
  | nil =>
    intro pos runStart acc _ _
    simp only [splitParasAux]
    by_cases hlt : runStart < pos
    · rw [if_pos hlt]
      exact List.pairwise_singleton _ _
    · rw [if_neg hlt]
      exact List.Pairwise.nil
  | cons l rest ih =>
    intro pos runStart acc hlen hacc
    simp only [splitParasAux]
    by_cases hb : isBlank l = true
    · rw [if_pos hb]
      apply List.pairwise_append.2
      refine ⟨?_, ih (pos + 1) (pos + 1) [] (by simp) (by simp), ?_⟩
      · by_cases hlt : runStart < pos
        · rw [if_pos hlt]; exact List.pairwise_singleton _ _
        · rw [if_neg hlt]; exact List.Pairwise.nil
      · intro q1 hq1 q2 hq2
        obtain ⟨hg1, _, _, _, _, _⟩ :=
          splitParasAux_mem rest (pos + 1) (pos + 1) [] (by simp) (by simp) q2 hq2
        by_cases hlt : runStart < pos
        · rw [if_pos hlt] at hq1
          rcases List.mem_cons.1 hq1 with rfl | hq1
          · show pos + 2 ≤ q2.1
            omega
          · cases hq1
        · rw [if_neg hlt] at hq1
          cases hq1
    · rw [if_neg hb]
      apply ih (pos + 1) runStart (acc ++ [l]) (by simp; omega)
      intro x hx
      rcases List.mem_append.1 hx with hx | hx
      · exact hacc x hx
      · rcases List.mem_cons.1 hx with rfl | hx
        · simpa using hb
        · cases hx

/-! ## Enumeration, byte offsets and encoding lemmas -/

/-- Length of an enumeration. -/
theorem enumerateFrom_length {α : Type _} : ∀ (l : List α) (n : Nat),
    (enumerateFrom n l).length = l.length := by
  intro l
  induction l with
  | nil => intro n; rfl
  | cons a rest ih => intro n; simp [enumerateFrom, ih]

/-- Members of an enumeration: an in-range index paired with the element
at it. -/
theorem mem_enumerateFrom {α : Type _} : ∀ {l : List α} {n : Nat} {q : Nat × α},
    q ∈ enumerateFrom n l → n ≤ q.1 ∧ q.2 ∈ l := by
  intro l
  induction l with
  | nil => intro n q h; cases h
  | cons a rest ih =>
    intro n q h
    rcases List.mem_cons.1 h with rfl | h
    · exact ⟨le_refl _, List.mem_cons_self _ _⟩
    · obtain ⟨h1, h2⟩ := ih h
      exact ⟨by omega, List.mem_cons_of_mem _ h2⟩

/-- The i-th entry of an enumeration. -/
theorem enumerateFrom_get {α : Type _} : ∀ (l : List α) (n i : Nat) (h : i < l.length),
    (enumerateFrom n l).get ⟨i, by rw [enumerateFrom_length]; exact h⟩ = (n + i, l.get ⟨i, h⟩) := by
  intro l
  induction l with
  | nil => intro n i h; cases h
  | cons a rest ih =>
    intro n i h
    cases i with
    | zero => simp [enumerateFrom]
    | succ j =>
      have hj : j < rest.length := by simpa using h
      have := ih (n + 1) j hj
      simp only [enumerateFrom, List.get_cons_succ]
      rw [this]
      have : n + 1 + j = n + (j + 1) := by omega
      rw [this]

/-- Mapping a function of the element over an enumeration. -/
theorem enumerateFrom_map_snd {α β : Type _} (g : α → β) : ∀ (l : List α) (n : Nat),
    (enumerateFrom n l).map (fun q => g q.2) = l.map g := by
  intro l
  induction l with
  | nil => intro n; rfl
  | cons a rest ih => intro n; simp [enumerateFrom, ih]

/-- Pairwise relations transfer to the enumeration. -/
theorem enumerateFrom_pairwise {α : Type _} {R : α → α → Prop} : ∀ {l : List α} {n : Nat},
    List.Pairwise R l →
    List.Pairwise (fun q1 q2 : Nat × α => R q1.2 q2.2) (enumerateFrom n l) := by
  intro l
  induction l with
  | nil => intro n _; exact List.Pairwise.nil
  | cons a rest ih =>
    intro n h
    rcases List.pairwise_cons.1 h with ⟨ha, hrest⟩
    apply List.pairwise_cons.2
    refine ⟨?_, ih hrest⟩
    intro q hq
    exact ha q.2 (mem_enumerateFrom hq).2

/-- Appending distributes over UTF-8 encoding. -/
theorem utf8Encode_append (a b : Text) : utf8Encode (a ++ b) = utf8Encode a ++ utf8Encode b := by
  unfold utf8Encode
  rw [List.map_append, List.flatten_append]

/-- Every character encodes to at least one byte. -/
theorem utf8EncodeChar_ne_nil (c : Char) : utf8EncodeChar c ≠ [] := by
  unfold utf8EncodeChar
  by_cases h1 : c.toNat < 0x80
  · simp [h1]
  · by_cases h2 : c.toNat < 0x800
    · simp [h1, h2]
    · by_cases h3 : c.toNat < 0x10000
      · simp [h1, h2, h3]
      · simp [h1, h2, h3]

/-- A line re-encoded with its newline occupies at least one byte. -/
theorem utf8_line_len_pos (ln : Text) : 1 ≤ (utf8Encode (ln ++ ['\n'])).length := by
  rw [utf8Encode_append]
  have h : utf8Encode ['\n'] = [10] := by decide
  simp [h]

/-- The byte-offset table read at an in-range index is the accumulated
byte length of the lines before that index. -/
theorem byteOffsets_getD : ∀ (bs : List (List Nat)) (acc i : Nat), i ≤ bs.length →
    (byteOffsets bs acc).getD i 0 = acc + (((bs.take i).map List.length).sum) := by
  intro bs
  induction bs with
  | nil =>
    intro acc i h
    have hi : i = 0 := by simpa using h
    subst hi
    simp [byteOffsets]
  | cons b rest ih =>
    intro acc i h
    cases i with
    | zero => simp [byteOffsets]
    | succ j =>
      have hj : j ≤ rest.length := by simpa using h
      show (byteOffsets rest (acc + b.length)).getD j 0 = _
      rw [ih (acc + b.length) j hj]
      simp [List.take_succ_cons]
      omega

/-- A character other than CR survives newline folding. -/
theorem mem_foldCR_of : ∀ {s : Text} {c : Char}, c ∈ s → c ≠ '\r' → c ∈ foldCR s := by
  intro s
  induction s using foldCR.induct with
  | case1 => intro c h; cases h
  | case2 rest ih =>
    intro c h hc
    simp only [foldCR, List.mem_cons]
    simp only [List.mem_cons] at h
    rcases h with rfl | h
    · exact absurd rfl hc
    · rcases h with rfl | h
      · exact Or.inl rfl
      · exact Or.inr (ih h hc)
  | case3 rest _ ih =>
    intro c h hc
    simp only [foldCR, List.mem_cons]
    simp only [List.mem_cons] at h
    rcases h with rfl | h
    · exact absurd rfl hc
    · exact Or.inr (ih h hc)
  | case4 c' rest _ _ ih =>
    intro c h hc
    simp only [foldCR, List.mem_cons]
    simp only [List.mem_cons] at h
    rcases h with rfl | h
    · exact Or.inl rfl
    · exact Or.inr (ih h hc)

/-- A non-newline character of the text lies on one of its lines. -/
theorem exists_mem_splitNL : ∀ {t : Text} {c : Char}, c ∈ t → c ≠ '\n' →
    ∃ l ∈ splitNL t, c ∈ l := by
  intro t
  induction t with
  | nil => intro c h; cases h
  | cons a rest ih =>
    intro c h hc
    by_cases ha : a = '\n'
    · subst ha
      rcases List.mem_cons.1 h with rfl | h
      · exact absurd rfl hc
      · obtain ⟨l, hl, hcl⟩ := ih h hc
        exact ⟨l, by rw [splitNL_cons_nl]; exact List.mem_cons_of_mem _ hl, hcl⟩
    · obtain ⟨l0, ls, hs⟩ := splitNL_exists_cons rest
      rcases List.mem_cons.1 h with rfl | h
      · exact ⟨c :: l0, by rw [splitNL_cons_ne ha rest hs]; exact List.mem_cons_self _ _,
          List.mem_cons_self _ _⟩
      · obtain ⟨l, hl, hcl⟩ := ih h hc
        rw [hs] at hl
        rcases List.mem_cons.1 hl with rfl | hl
        · exact ⟨a :: l, by rw [splitNL_cons_ne ha rest hs]; exact List.mem_cons_self _ _,
            List.mem_cons_of_mem _ hcl⟩
        · exact ⟨l, by rw [splitNL_cons_ne ha rest hs]; exact List.mem_cons_of_mem _ hl, hcl⟩

/-- A text containing a non-whitespace character normalizes to text that
still strips to something non-empty. -/
theorem normalise_nonblank : ∀ {x : Text} {c : Char}, c ∈ x → pyIsSpace c = false →
    (pyStrip (normalise_text x)).isEmpty = false := by
  intro x c hc hws
  have hcr : c ≠ '\r' := by
    intro h
    rw [h] at hws
    exact absurd hws (by decide)
  have hnl : c ≠ '\n' := by
    intro h
    rw [h] at hws
    exact absurd hws (by decide)
  have h1 : c ∈ foldCR x := mem_foldCR_of hc hcr
  obtain ⟨l, hl, hcl⟩ := exists_mem_splitNL h1 hnl
  have h2 : c ∈ pyRstrip l := mem_pyRstrip_of_mem hcl hws
  have h3 : pyRstrip l ∈ (splitNL (foldCR x)).map pyRstrip := List.mem_map_of_mem _ hl
  have h4 : c ∈ intercalateNL ((splitNL (foldCR x)).map pyRstrip) :=
    mem_intercalateNL_of h3 h2
  have h5 : c ∈ normalise_text x := mem_stripNL_of_mem h4 hnl
  rw [Bool.eq_false_iff]
  intro hempty
  exact absurd (pyStrip_eq_nil_iff.1 (List.isEmpty_iff.1 hempty) c h5)
    (by rw [hws]; decide)

/-- Every paragraph of the top-level scan normalizes to non-blank text, so
the emptiness filter of file_to_fragments keeps every built Fragment. -/
theorem paragraph_text_nonblank : ∀ {t : Text} {q : Nat × Nat × Text},
    q ∈ split_into_paragraphs t → (pyStrip (normalise_text q.2.2)).isEmpty = false := by
  intro t q hq
  obtain ⟨_, _, _, h4, h5, h6⟩ :=
    splitParasAux_mem (splitNL (foldCR t)) 0 0 [] (by simp) (by simp) q hq
  rw [List.nil_append] at h4 h5 h6
  set slice := ((splitNL (foldCR t)).drop (q.1 - 1 - 0)).take (q.2.1 + 1 - q.1) with hsl
  obtain ⟨l0, ls, hcons⟩ := List.exists_cons_of_ne_nil h5
  have hl0 : isBlank l0 = false := h6 l0 (by rw [hcons]; exact List.mem_cons_self _ _)
  obtain ⟨c, hcl, hcw⟩ := isBlank_eq_false_iff.1 hl0
  have hcmem : c ∈ q.2.2 := by
    rw [h4]
    exact mem_intercalateNL_of (by rw [hcons]; exact List.mem_cons_self _ _) hcl
  exact normalise_nonblank hcmem hcw

/-- fragmentsOfText on non-empty text is exactly the enumerated map (the
filter drops nothing). -/
theorem fragmentsOfText_eq_map (p m st : String) (conf : Nat) (t : Text)
    (ht : t.isEmpty = false) :
    fragmentsOfText p m st conf t =
      (enumerateFrom 1 (split_into_paragraphs t)).map
        (fun q => mkFragment p m st conf
          ((splitNL (foldCR t)).map (fun ln => utf8Encode (ln ++ ['\n'])))
          (byteOffsets ((splitNL (foldCR t)).map (fun ln => utf8Encode (ln ++ ['\n']))) 0)
          q.1 q.2) := by
  unfold fragmentsOfText
  rw [if_neg (by rw [ht]; exact Bool.false_ne_true)]
  apply List.filter_eq_self.2
  intro f hf
  obtain ⟨q, hq, rfl⟩ := List.mem_map.1 hf
  have hmem := (mem_enumerateFrom hq).2
  have := paragraph_text_nonblank hmem
  show (!(pyStrip (normalise_text q.2.2.2)).isEmpty) = true
  rw [this]
  rfl

/-- A list of positive naturals is at least as large as its length. -/
theorem le_sum_of_all_one : ∀ {L : List Nat}, (∀ x ∈ L, 1 ≤ x) → L.length ≤ L.sum := by
  intro L
  induction L with
  | nil => intro _; simp
  | cons a rest ih =>
    intro h
    have ha := h a (List.mem_cons_self _ _)
    have hr := ih (fun x hx => h x (List.mem_cons_of_mem _ hx))
    simp only [List.length_cons, List.sum_cons]
    omega

/-- The byte-offset table grows by at least one byte per line (for the
per-line utf-8 re-encodings, which are never empty). -/
theorem byteOffsets_mono (bs : List (List Nat)) (hpos : ∀ b ∈ bs, 1 ≤ b.length)
    (i j : Nat) (hij : i ≤ j) (hj : j ≤ bs.length) :
    (byteOffsets bs 0).getD i 0 + (j - i) ≤ (byteOffsets bs 0).getD j 0 := by
  rw [byteOffsets_getD bs 0 i (le_trans hij hj), byteOffsets_getD bs 0 j hj]
  have hsplit : bs.take j = bs.take i ++ (bs.drop i).take (j - i) := by
    rw [← List.take_add]
    congr 1
    omega
  rw [hsplit, List.map_append, List.sum_append]
  have hmidlen : ((bs.drop i).take (j - i)).length = j - i := by
    rw [List.length_take, List.length_drop]
    omega
  have hmid : j - i ≤ (((bs.drop i).take (j - i)).map List.length).sum := by
    have hall : ∀ x ∈ ((bs.drop i).take (j - i)).map List.length, 1 ≤ x := by
      intro x hx
      obtain ⟨b, hb, rfl⟩ := List.mem_map.1 hx
      exact hpos b (List.mem_of_mem_drop (List.mem_of_mem_take hb))
    have := le_sum_of_all_one hall
    rw [List.length_map, hmidlen] at this
    exact this
  omega

/-! ## C10: fragment range and id invariants -/

/-- C10: for every input, the returned Fragments have 1 <= line_start <=
line_end and byte_start < byte_end, consecutive Fragments have strictly
increasing line ranges (earlier line_end < later line_start) and
non-overlapping byte ranges (earlier byte_end <= later byte_start), and the
i-th returned Fragment (0-based i) has fragment_id "frag_" ++ (i+1) padded
to six digits: the emptiness filter never drops a numbered paragraph. -/
theorem c10_fragment_invariants (p m st : String) (conf : Nat) (data : List Nat) :
    (∀ f ∈ file_to_fragments p m st conf data,
      1 ≤ f.line_start ∧ f.line_start ≤ f.line_end ∧ f.byte_start < f.byte_end) ∧
    List.Pairwise (fun f g : Fragment => f.line_end < g.line_start ∧ f.byte_end ≤ g.byte_start)
      (file_to_fragments p m st conf data) ∧
    (∀ i (h : i < (file_to_fragments p m st conf data).length),
      ((file_to_fragments p m st conf data).get ⟨i, h⟩).fragment_id = "frag_" ++ pad6 (i + 1)) := by
  unfold file_to_fragments
  by_cases he : ((decodeFile data).getD []).isEmpty = true
  · rw [if_pos he]
    refine ⟨fun f hf => absurd hf (List.not_mem_nil f), List.Pairwise.nil, fun i h => absurd h (by simp)⟩
  · rw [if_neg he]
    rw [fragmentsOfText_eq_map p m st conf _ (by simpa using he)]
    set t := (decodeFile data).getD [] with hT
    set ul := (splitNL (foldCR t)).map (fun ln => utf8Encode (ln ++ ['\n'])) with hUL
    have hulpos : ∀ b ∈ ul, 1 ≤ b.length := by
      intro b hb
      obtain ⟨ln, _, rfl⟩ := List.mem_map.1 hb
      exact utf8_line_len_pos ln
    have hullen : ul.length = (splitNL (foldCR t)).length := List.length_map _ _
    have hbounds : ∀ q ∈ split_into_paragraphs t,
        1 ≤ q.1 ∧ q.1 ≤ q.2.1 ∧ q.2.1 ≤ (splitNL (foldCR t)).length := by
      intro q hq
      obtain ⟨h1, h2, h3, _, _, _⟩ :=
        splitParasAux_mem (splitNL (foldCR t)) 0 0 [] (by simp) (by simp) q hq
      exact ⟨h1, h2, by simpa using h3⟩
    refine ⟨?_, ?_, ?_⟩
    · intro f hf
      obtain ⟨x, hx, rfl⟩ := List.mem_map.1 hf
      have hqmem := (mem_enumerateFrom hx).2
      obtain ⟨h1, h2, h3⟩ := hbounds x.2 hqmem
      refine ⟨h1, h2, ?_⟩
      show (byteOffsets ul 0).getD (x.2.1 - 1) 0 < (byteOffsets ul 0).getD x.2.2.1 0
      have := byteOffsets_mono ul hulpos (x.2.1 - 1) x.2.2.1 (by omega) (by omega)
      omega
    · rw [List.pairwise_map]
      apply List.Pairwise.imp_of_mem ?_
        (enumerateFrom_pairwise (splitParasAux_pairwise (splitNL (foldCR t)) 0 0 [] (by simp) (by simp)))
      intro x y hx hy hr
      obtain ⟨hx1, hx2, hx3⟩ := hbounds x.2 (mem_enumerateFrom hx).2
      obtain ⟨hy1, hy2, hy3⟩ := hbounds y.2 (mem_enumerateFrom hy).2
      constructor
      · show x.2.2.1 < y.2.1
        omega
      · show (byteOffsets ul 0).getD x.2.2.1 0 ≤ (byteOffsets ul 0).getD (y.2.1 - 1) 0
        have := byteOffsets_mono ul hulpos x.2.2.1 (y.2.1 - 1) (by omega) (by omega)
        omega
    · intro i h
      have hlen : i < (enumerateFrom 1 (split_into_paragraphs t)).length := by
        rw [enumerateFrom_length]
        rw [List.length_map, enumerateFrom_length] at h
        exact h
      have hlen2 : i < (split_into_paragraphs t).length := by
        rw [enumerateFrom_length] at hlen
        exact hlen
      rw [List.get_eq_getElem, List.getElem_map]
      have hget := enumerateFrom_get (split_into_paragraphs t) 1 i hlen2
      rw [List.get_eq_getElem] at hget
      rw [hget]
      show "frag_" ++ pad6 (1 + i) = "frag_" ++ pad6 (i + 1)
      rw [Nat.add_comm]

/-- C10 witness: the two-paragraph file "a\n\nb" has a first fragment with
in-order ranges and id frag_000001. -/
theorem c10_fragment_invariants_witness :
    1 ≤ ((file_to_fragments "p" "m" "file" 70 [97, 10, 10, 98]).get ⟨0, by decide⟩).line_start ∧
    ((file_to_fragments "p" "m" "file" 70 [97, 10, 10, 98]).get ⟨0, by decide⟩).line_start ≤
      ((file_to_fragments "p" "m" "file" 70 [97, 10, 10, 98]).get ⟨0, by decide⟩).line_end ∧
    ((file_to_fragments "p" "m" "file" 70 [97, 10, 10, 98]).get ⟨0, by decide⟩).byte_start <
      ((file_to_fragments "p" "m" "file" 70 [97, 10, 10, 98]).get ⟨0, by decide⟩).byte_end ∧
    ((file_to_fragments "p" "m" "file" 70 [97, 10, 10, 98]).get ⟨0, by decide⟩).fragment_id =
      "frag_" ++ pad6 1 := by
  have h := c10_fragment_invariants "p" "m" "file" 70 [97, 10, 10, 98]
  have hm := h.1 ((file_to_fragments "p" "m" "file" 70 [97, 10, 10, 98]).get ⟨0, by decide⟩)
    (List.get_mem (file_to_fragments "p" "m" "file" 70 [97, 10, 10, 98]) 0 (by decide))
  exact ⟨hm.1, hm.2.1, hm.2.2, h.2.2 0 (by decide)⟩

/-! ## C1: paragraph round-trip -/

/-- Functions equal on a list map equally over it. -/
theorem map_congr_mem {α β : Type _} {f g : α → β} : ∀ {l : List α},
    (∀ a ∈ l, f a = g a) → l.map f = l.map g := by
  intro l
  induction l with
  | nil => intro _; rfl
  | cons a rest ih =>
    intro h
    rw [List.map_cons, List.map_cons, h a (List.mem_cons_self _ _),
      ih (fun b hb => h b (List.mem_cons_of_mem _ hb))]

/-- sepJoin of a single paragraph ignores the separators. -/
theorem sepJoin_single (p : List Text) (bs : List Text) : sepJoin [p] bs = p := by
  cases bs <;> rfl

/-- Consuming a run of non-blank lines extends the open run. -/
theorem splitParasAux_run : ∀ (p : List Text), (∀ l ∈ p, isBlank l = false) →
    ∀ (rest : List Text) (pos runStart : Nat) (acc : List Text),
      splitParasAux (p ++ rest) pos runStart acc =
        splitParasAux rest (pos + p.length) runStart (acc ++ p) := by
  intro p
  induction p with
  | nil => intro _ rest pos runStart acc; simp
  | cons l p' ih =>
    intro h rest pos runStart acc
    have hl : isBlank l = false := h l (List.mem_cons_self _ _)
    show splitParasAux (l :: (p' ++ rest)) pos runStart acc = _
    simp only [splitParasAux, hl, Bool.false_eq_true, if_false]
    rw [ih (fun x hx => h x (List.mem_cons_of_mem _ hx)) rest (pos + 1) runStart (acc ++ [l])]
    rw [List.append_assoc, List.singleton_append]
    congr 1
    simp only [List.length_cons]
    omega

/-- Leading blank lines advance the scanner without emitting. -/
theorem splitParasAux_blanks : ∀ (pre : List Text), (∀ l ∈ pre, isBlank l = true) →
    ∀ (rest : List Text) (pos : Nat),
      splitParasAux (pre ++ rest) pos pos [] =
        splitParasAux rest (pos + pre.length) (pos + pre.length) [] := by
  intro pre
  induction pre with
  | nil => intro _ rest pos; simp
  | cons b pre' ih =>
    intro h rest pos
    have hb : isBlank b = true := h b (List.mem_cons_self _ _)
    show splitParasAux (b :: (pre' ++ rest)) pos pos [] = _
    simp only [splitParasAux, hb, if_true, Nat.lt_irrefl, if_false, List.nil_append]
    rw [ih (fun x hx => h x (List.mem_cons_of_mem _ hx)) rest (pos + 1)]
    congr 1 <;> simp only [List.length_cons] <;> omega

/-- Scanning paragraphs separated by single blank lines yields exactly the
expected decomposition. -/
theorem splitParasAux_sepJoin : ∀ (ps : List (List Text)) (bs : List Text) (k : Nat),
    (∀ q ∈ ps, q ≠ [] ∧ ∀ l ∈ q, isBlank l = false) →
    (∀ b ∈ bs, isBlank b = true) →
    bs.length + 1 = ps.length →
    splitParasAux (sepJoin ps bs) k k [] = expectedParas k ps := by
  intro ps
  induction ps with
  | nil =>
    intro bs k _ _ hlen
    simp at hlen
  | cons p ps' ih =>
    intro bs k hps hbs hlen
    obtain ⟨hpne, hpnb⟩ := hps p (List.mem_cons_self _ _)
    have hplen : 1 ≤ p.length := List.length_pos.2 hpne
    cases ps' with
    | nil =>
      rw [sepJoin_single]
      have hrun := splitParasAux_run p hpnb [] k k []
      rw [List.append_nil] at hrun
      rw [hrun, List.nil_append]
      simp only [splitParasAux]
      rw [if_pos (by omega)]
      rfl
    | cons p2 ps'' =>
      cases bs with
      | nil => simp at hlen
      | cons b bs' =>
        have hb : isBlank b = true := hbs b (List.mem_cons_self _ _)
        have hlen' : bs'.length + 1 = (p2 :: ps'').length := by
          simp only [List.length_cons] at hlen ⊢
          omega
        show splitParasAux (p ++ b :: sepJoin (p2 :: ps'') bs') k k [] = _
        rw [splitParasAux_run p hpnb _ k k []]
        rw [List.nil_append]
        simp only [splitParasAux, hb, if_true]
        rw [if_pos (by omega)]
        rw [ih bs' (k + p.length + 1)
          (fun q hq => hps q (List.mem_cons_of_mem _ hq))
          (fun x hx => hbs x (List.mem_cons_of_mem _ hx))
          hlen']
        rfl

/-- The expected decomposition has one entry per paragraph. -/
theorem expectedParas_length : ∀ (ps : List (List Text)) (k : Nat),
    (expectedParas k ps).length = ps.length := by
  intro ps
  induction ps with
  | nil => intro k; rfl
  | cons p ps' ih => intro k; simp [expectedParas, ih]

/-- A line of the first paragraph is a line of the joined sequence. -/
theorem mem_sepJoin_head : ∀ (p : List Text) (ps : List (List Text)) (bs : List Text) {l : Text},
    l ∈ p → l ∈ sepJoin (p :: ps) bs := by
  intro p ps bs l hl
  cases ps with
  | nil => rw [sepJoin_single]; exact hl
  | cons p2 ps' =>
    cases bs with
    | nil => exact List.mem_append_left _ hl
    | cons b bs' => exact List.mem_append_left _ hl

/-- The joined sequence of nonempty paragraphs is nonempty. -/
theorem sepJoin_ne_nil : ∀ (p : List Text) (ps : List (List Text)) (bs : List Text),
    p ≠ [] → sepJoin (p :: ps) bs ≠ [] := by
  intro p ps bs hp
  cases ps with
  | nil => rw [sepJoin_single]; exact hp
  | cons p2 ps' =>
    cases bs with
    | nil =>
      intro h
      exact hp (List.append_eq_nil.1 h).1
    | cons b bs' =>
      intro h
      exact hp (List.append_eq_nil.1 h).1

/-- C1: a file whose decoded text is a sequence of paragraphs separated by
exactly one blank line each, possibly preceded by blank lines, yields
exactly one Fragment per paragraph, in order, with line_start..line_end
(1-based, inclusive) exactly bounding each paragraph's run of non-blank
lines in the post-fold line sequence; leading blank lines produce no
paragraph and the trailing paragraph needs no final boundary. -/
theorem c1_paragraph_roundtrip (p m st : String) (conf : Nat) (data : List Nat)
    (pre : List Text) (ps : List (List Text)) (bs : List Text)
    (hdec : decodeFile data = some (intercalateNL (pre ++ sepJoin ps bs)))
    (hpre : ∀ l ∈ pre, isBlank l = true)
    (hps : ∀ q ∈ ps, q ≠ [] ∧ ∀ l ∈ q, isBlank l = false)
    (hbs : ∀ b ∈ bs, isBlank b = true)
    (hlen : ps = [] ∨ bs.length + 1 = ps.length)
    (hnl : ∀ l ∈ pre ++ sepJoin ps bs, '\n' ∉ l ∧ '\r' ∉ l) :
    (file_to_fragments p m st conf data).length = ps.length ∧
    (file_to_fragments p m st conf data).map (fun f => (f.line_start, f.line_end)) =
      (expectedParas pre.length ps).map (fun q => (q.1, q.2.1)) := by
  have hnocr : '\r' ∉ intercalateNL (pre ++ sepJoin ps bs) := by
    intro hc
    rcases mem_intercalateNL hc with h | ⟨l, hl, hcl⟩
    · exact absurd h (by decide)
    · exact (hnl l hl).2 hcl
  have hfold : foldCR (intercalateNL (pre ++ sepJoin ps bs)) =
      intercalateNL (pre ++ sepJoin ps bs) := foldCR_eq_self hnocr
  unfold file_to_fragments
  rw [hdec, Option.getD_some]
  cases ps with
  | nil =>
    refine ?_
    have hsep : sepJoin [] bs = [] := rfl
    rw [hsep, List.append_nil] at hdec hnl hfold ⊢
    by_cases hemp : (intercalateNL pre).isEmpty = true
    · rw [if_pos hemp]
      exact ⟨rfl, rfl⟩
    · rw [if_neg hemp]
      have hprene : pre ≠ [] := by
        intro h
        rw [h] at hemp
        exact hemp rfl
      have hsplit : splitNL (intercalateNL pre) = pre :=
        splitNL_intercalateNL hprene (fun l hl => (hnl l hl).1)
      have hparas : split_into_paragraphs (intercalateNL pre) = [] := by
        unfold split_into_paragraphs
        rw [hfold, hsplit]
        exact splitParasAux_all_blank pre hpre 0
      unfold fragmentsOfText
      rw [if_neg hemp, hparas]
      exact ⟨rfl, rfl⟩
  | cons p0 ps0 =>
    have hlen' : bs.length + 1 = (p0 :: ps0).length := by
      rcases hlen with h | h
      · cases h
      · exact h
    obtain ⟨hp0ne, hp0nb⟩ := hps p0 (List.mem_cons_self _ _)
    obtain ⟨l0, p0', rfl⟩ := List.exists_cons_of_ne_nil hp0ne
    have hl0 : isBlank l0 = false := hp0nb l0 (List.mem_cons_self _ _)
    obtain ⟨c0, hc0l, hc0w⟩ := isBlank_eq_false_iff.1 hl0
    have hlinesne : pre ++ sepJoin ((l0 :: p0') :: ps0) bs ≠ [] := by
      intro h
      obtain ⟨h1, h2⟩ := List.append_eq_nil.1 h
      exact sepJoin_ne_nil _ ps0 bs (List.cons_ne_nil _ _) h2
    have hc0t : c0 ∈ intercalateNL (pre ++ sepJoin ((l0 :: p0') :: ps0) bs) := by
      apply mem_intercalateNL_of ?_ hc0l
      apply List.mem_append_right
      exact mem_sepJoin_head _ ps0 bs (List.mem_cons_self _ _)
    have htne : intercalateNL (pre ++ sepJoin ((l0 :: p0') :: ps0) bs) ≠ [] :=
      List.ne_nil_of_mem hc0t
    have hempf : (intercalateNL (pre ++ sepJoin ((l0 :: p0') :: ps0) bs)).isEmpty = false := by
      obtain ⟨a, r, har⟩ := List.exists_cons_of_ne_nil htne
      rw [har]
      rfl
    rw [if_neg (by rw [hempf]; exact Bool.false_ne_true)]
    rw [fragmentsOfText_eq_map p m st conf _ hempf]
    have hsplit : splitNL (foldCR (intercalateNL (pre ++ sepJoin ((l0 :: p0') :: ps0) bs))) =
        pre ++ sepJoin ((l0 :: p0') :: ps0) bs := by
      rw [hfold]
      exact splitNL_intercalateNL hlinesne (fun l hl => (hnl l hl).1)
    have hparas : split_into_paragraphs (intercalateNL (pre ++ sepJoin ((l0 :: p0') :: ps0) bs)) =
        expectedParas pre.length ((l0 :: p0') :: ps0) := by
      unfold split_into_paragraphs
      rw [hsplit, splitParasAux_blanks pre hpre _ 0]
      have h0 : 0 + pre.length = pre.length := by omega
      rw [h0]
      exact splitParasAux_sepJoin _ bs pre.length hps hbs hlen'
    rw [hparas]
    constructor
    · rw [List.length_map, enumerateFrom_length, expectedParas_length]
    · rw [List.map_map]
      exact (map_congr_mem (fun x _ => rfl)).trans
        (enumerateFrom_map_snd (fun q : Nat × Nat × Text => (q.1, q.2.1)) _ 1)

/-- C1 witness: the file "ab\n\nc\nd" has two paragraphs, at lines 1..1 and
3..4. -/
theorem c1_paragraph_roundtrip_witness :
    decodeFile [97, 98, 10, 10, 99, 10, 100] =
      some (intercalateNL (([] : List Text) ++
        sepJoin [[['a', 'b']], [['c'], ['d']]] [[]])) ∧
    (file_to_fragments "p" "m" "file" 70 [97, 98, 10, 10, 99, 10, 100]).length = 2 ∧
    (file_to_fragments "p" "m" "file" 70 [97, 98, 10, 10, 99, 10, 100]).map
        (fun f => (f.line_start, f.line_end)) =
      (expectedParas (List.length ([] : List Text)) [[['a', 'b']], [['c'], ['d']]]).map
        (fun q => (q.1, q.2.1)) := by
  refine ⟨by decide, ?_, ?_⟩
  · have h := (c1_paragraph_roundtrip "p" "m" "file" 70 [97, 98, 10, 10, 99, 10, 100]
      [] [[['a', 'b']], [['c'], ['d']]] [[]] (by decide) (by decide) (by decide)
      (by decide) (Or.inr (by decide)) (by decide)).1
    simpa using h
  · exact (c1_paragraph_roundtrip "p" "m" "file" 70 [97, 98, 10, 10, 99, 10, 100]
      [] [[['a', 'b']], [['c'], ['d']]] [[]] (by decide) (by decide) (by decide)
      (by decide) (Or.inr (by decide)) (by decide)).2

/-! ## C7: the sampled-byte budget of the walker -/

/-- The sampled total over an extended candidate list. -/
theorem sumMinSample_append (a b : List Candidate) :
    sumMinSample (a ++ b) = sumMinSample a + sumMinSample b := by
  unfold sumMinSample
  rw [List.map_append, List.sum_append]

/-- Spine induction for entry lists (subdirectory contents are opaque to
the per-directory loop, which only walks the spine). -/
theorem simEntries_induction (P : SimEntries → Prop) (h1 : P .nil)
    (h2 : ∀ e rest, P rest → P (.cons e rest)) : ∀ es, P es
  | .nil => h1
  | .cons e rest => h2 e rest (simEntries_induction P h1 h2 rest)

/-- Invariants of the per-directory entry loop: candidates only accumulate,
the byte counter tracks the sampled total, the file counter tracks the
candidate count, a non-stopped loop stays under budget, and before every
yielded candidate the running total was under budget. -/
theorem walkEntries_invariant (fs : Bool) (mb : Nat) : ∀ (es : SimEntries)
    (cands cands' : List Candidate) (q q' : List SimEntries) (st st' : WalkState) (stopped : Bool),
    walkEntries fs mb es cands q st = (cands', q', st', stopped) →
    st.total_bytes_read = sumMinSample cands →
    st.total_files = cands.length →
    st.total_bytes_read < mb →
    (∀ i, i < cands.length → sumMinSample (cands.take i) < mb) →
    st'.total_bytes_read = sumMinSample cands' ∧
    st'.total_files = cands'.length ∧
    (stopped = false → st'.total_bytes_read < mb) ∧
    (∀ i, i < cands'.length → sumMinSample (cands'.take i) < mb) := by
  intro es
  induction es using simEntries_induction with
  | h1 =>
    intro cands cands' q q' st st' stopped heq h1 h2 h3 h4
    simp only [walkEntries, Prod.mk.injEq] at heq
    obtain ⟨rfl, _, rfl, rfl⟩ := heq
    exact ⟨h1, h2, fun _ => h3, h4⟩
  | h2 e rest ih =>
    intro cands cands' q q' st st' stopped heq h1 h2 h3 h4
    cases e with
    | dir d =>
      exact ih cands cands' (q ++ [d]) q' st st' stopped heq h1 h2 h3 h4
    | file f =>
      simp only [walkEntries] at heq
      cases hcl : classifyEntry fs f with
      | skippedSymlink =>
        rw [hcl] at heq
        exact ih cands cands' q q' _ st' stopped heq h1 h2 h3 h4
      | ignored =>
        rw [hcl] at heq
        exact ih cands cands' q q' st st' stopped heq h1 h2 h3 h4
      | skippedCloud =>
        rw [hcl] at heq
        exact ih cands cands' q q' _ st' stopped heq h1 h2 h3 h4
      | skippedBinary =>
        rw [hcl] at heq
        exact ih cands cands' q q' _ st' stopped heq h1 h2 h3 h4
      | candidate =>
        rw [hcl] at heq
        simp only at heq
        set c : Candidate := { parts := f.parts, size := f.size, mtime_iso := f.mtime_iso }
          with hc
        have hsum : sumMinSample (cands ++ [c]) = sumMinSample cands + min f.size 4096 := by
          rw [sumMinSample_append]
          simp [sumMinSample, hc]
        have hpref : ∀ i, i < (cands ++ [c]).length → sumMinSample ((cands ++ [c]).take i) < mb := by
          intro i hi
          simp only [List.length_append, List.length_cons, List.length_nil] at hi
          by_cases hic : i < cands.length
          · rw [List.take_append_of_le_length (by omega)]
            exact h4 i hic
          · have hie : i = cands.length := by omega
            rw [hie, List.take_append_of_le_length (le_refl _), List.take_length]
            rw [← h1]
            exact h3
        by_cases hstop : mb ≤ st.total_bytes_read + min f.size 4096
        · rw [if_pos hstop] at heq
          simp only [Prod.mk.injEq] at heq
          obtain ⟨rfl, _, rfl, rfl⟩ := heq
          refine ⟨?_, ?_, ?_, hpref⟩
          · show st.total_bytes_read + min f.size 4096 = _
            rw [hsum, h1]
          · show st.total_files + 1 = _
            simp [h2]
          · intro h
            cases h
        · rw [if_neg hstop] at heq
          refine ih (cands ++ [c]) cands' q q' _ st' stopped heq ?_ ?_ ?_ hpref
          · show st.total_bytes_read + min f.size 4096 = _
            rw [hsum, h1]
          · show st.total_files + 1 = _
            simp [h2]
          · show st.total_bytes_read + min f.size 4096 < mb
            omega

/-- Invariants of the breadth-first queue loop, for any fuel. -/
theorem walkQueue_invariant (fs : Bool) (mb : Nat) : ∀ (fuel : Nat) (q : List SimEntries)
    (cands cands' : List Candidate) (st st' : WalkState),
    walkQueue fs mb fuel q cands st = (cands', st') →
    st.total_bytes_read = sumMinSample cands →
    st.total_files = cands.length →
    st.total_bytes_read < mb →
    (∀ i, i < cands.length → sumMinSample (cands.take i) < mb) →
    st'.total_bytes_read = sumMinSample cands' ∧
    st'.total_files = cands'.length ∧
    (∀ i, i < cands'.length → sumMinSample (cands'.take i) < mb) := by
  intro fuel
  induction fuel with
  | zero =>
    intro q cands cands' st st' heq h1 h2 _ h4
    simp only [walkQueue, Prod.mk.injEq] at heq
    obtain ⟨rfl, rfl⟩ := heq
    exact ⟨h1, h2, h4⟩
  | succ fuel' ih =>
    intro q cands cands' st st' heq h1 h2 h3 h4
    cases q with
    | nil =>
      simp only [walkQueue, Prod.mk.injEq] at heq
      obtain ⟨rfl, rfl⟩ := heq
      exact ⟨h1, h2, h4⟩
    | cons d rest =>
      rcases hwe : walkEntries fs mb d cands [] st with ⟨c1, q1, st1, stop1⟩
      obtain ⟨g1, g2, g3, g4⟩ :=
        walkEntries_invariant fs mb d cands c1 [] q1 st st1 stop1 hwe h1 h2 h3 h4
      simp only [walkQueue, hwe] at heq
      cases stop1 with
      | true =>
        simp only [if_true] at heq
        simp only [Prod.mk.injEq] at heq
        obtain ⟨rfl, rfl⟩ := heq
        exact ⟨g1, g2, g4⟩
      | false =>
        simp only [Bool.false_eq_true, if_false] at heq
        exact ih (rest ++ q1) c1 cands' st1 st' heq g1 g2 (g3 rfl) g4

/-- C7 counterexample: with max_bytes = 0 the budget is already reached
before any yield, yet the first passing file is still emitted (the check
runs only after the yield), so the claimed invariant that the running total
before every yielded candidate is strictly below max_bytes fails. -/
theorem c7_byte_budget_counterexample :
    (walk_candidates [.cons (.file ⟨["r", "a.txt"], 5, "m", [104, 105], false⟩) .nil]
      0 false).1.length = 1 ∧
    ¬ sumMinSample ((walk_candidates [.cons (.file ⟨["r", "a.txt"], 5, "m", [104, 105], false⟩) .nil]
      0 false).1.take 0) < 0 := by
  refine ⟨by decide, ?_⟩
  omega

/-- C7 amended: provided max_bytes is at least 1, the walker's
total_bytes_read equals the sum of min(size, 4096) over all yielded
Candidates (as does files_seen equal their count), and at the moment each
Candidate is yielded, the running total before its increment is strictly
below max_bytes — equivalently, once the total reaches max_bytes no further
Candidate is yielded. -/
theorem c7_byte_budget (roots : List SimEntries) (max_bytes : Nat) (follow_symlinks : Bool)
    (hmb : 1 ≤ max_bytes) :
    (walk_candidates roots max_bytes follow_symlinks).2.total_bytes_read =
      sumMinSample (walk_candidates roots max_bytes follow_symlinks).1 ∧
    (walk_candidates roots max_bytes follow_symlinks).2.total_files =
      (walk_candidates roots max_bytes follow_symlinks).1.length ∧
    (∀ i, i < (walk_candidates roots max_bytes follow_symlinks).1.length →
      sumMinSample ((walk_candidates roots max_bytes follow_symlinks).1.take i) < max_bytes) := by
  apply walkQueue_invariant follow_symlinks max_bytes (queueSize roots + 1) roots []
    (walk_candidates roots max_bytes follow_symlinks).1 initialWalkState
    (walk_candidates roots max_bytes follow_symlinks).2
  · rfl
  · rfl
  · rfl
  · exact hmb
  · intro i hi
    cases hi

/-- C7 witness: a directory with a 5000-byte and a 7-byte text file under a
4096-byte budget yields one candidate whose accounting matches. -/
theorem c7_byte_budget_witness :
    (1 ≤ 4096) ∧
    (walk_candidates [.cons (.file ⟨["r", "a.txt"], 5000, "m", [104, 105], false⟩)
        (.cons (.file ⟨["r", "b.txt"], 7, "m", [104, 105], false⟩) .nil)] 4096 false).2.total_bytes_read =
      sumMinSample (walk_candidates [.cons (.file ⟨["r", "a.txt"], 5000, "m", [104, 105], false⟩)
        (.cons (.file ⟨["r", "b.txt"], 7, "m", [104, 105], false⟩) .nil)] 4096 false).1 ∧
    (∀ i, i < (walk_candidates [.cons (.file ⟨["r", "a.txt"], 5000, "m", [104, 105], false⟩)
        (.cons (.file ⟨["r", "b.txt"], 7, "m", [104, 105], false⟩) .nil)] 4096 false).1.length →
      sumMinSample ((walk_candidates [.cons (.file ⟨["r", "a.txt"], 5000, "m", [104, 105], false⟩)
        (.cons (.file ⟨["r", "b.txt"], 7, "m", [104, 105], false⟩) .nil)] 4096 false).1.take i) < 4096) := by
  refine ⟨by decide, ?_, ?_⟩
  · exact (c7_byte_budget [.cons (.file ⟨["r", "a.txt"], 5000, "m", [104, 105], false⟩)
      (.cons (.file ⟨["r", "b.txt"], 7, "m", [104, 105], false⟩) .nil)] 4096 false (by decide)).1
  · exact (c7_byte_budget [.cons (.file ⟨["r", "a.txt"], 5000, "m", [104, 105], false⟩)
      (.cons (.file ⟨["r", "b.txt"], 7, "m", [104, 105], false⟩) .nil)] 4096 false (by decide)).2.2

/-- The queue grows by strictly less than the size of the directory just
processed. -/
theorem walkEntries_qsize (fs : Bool) (mb : Nat) : ∀ (es : SimEntries)
    (cands : List Candidate) (q : List SimEntries) (st : WalkState),
    queueSize ((walkEntries fs mb es cands q st).2.1) + 1 ≤ queueSize q + entriesSize es := by
  intro es
  induction es using simEntries_induction with
  | h1 =>
    intro cands q st
    simp [walkEntries, entriesSize]
  | h2 e rest ih =>
    intro cands q st
    cases e with
    | dir d =>
      have := ih cands (q ++ [d]) st
      have hq : queueSize (q ++ [d]) = queueSize q + entriesSize d := by
        simp [queueSize]
      show queueSize ((walkEntries fs mb rest cands (q ++ [d]) st).2.1) + 1 ≤
        queueSize q + (entrySize (.dir d) + entriesSize rest)
      simp only [entrySize]
      omega
    | file f =>
      show queueSize ((walkEntries fs mb (.cons (.file f) rest) cands q st).2.1) + 1 ≤
        queueSize q + (entrySize (.file f) + entriesSize rest)
      simp only [walkEntries, entrySize]
      cases hcl : classifyEntry fs f with
      | skippedSymlink =>
        show queueSize ((walkEntries fs mb rest cands q
            { st with skipped_symlink := st.skipped_symlink + 1 }).2.1) + 1 ≤ _
        have := ih cands q { st with skipped_symlink := st.skipped_symlink + 1 }
        omega
      | ignored =>
        show queueSize ((walkEntries fs mb rest cands q st).2.1) + 1 ≤ _
        have := ih cands q st
        omega
      | skippedCloud =>
        show queueSize ((walkEntries fs mb rest cands q
            { st with skipped_cloud := st.skipped_cloud + 1 }).2.1) + 1 ≤ _
        have := ih cands q { st with skipped_cloud := st.skipped_cloud + 1 }
        omega
      | skippedBinary =>
        show queueSize ((walkEntries fs mb rest cands q
            { st with skipped_binary := st.skipped_binary + 1 }).2.1) + 1 ≤ _
        have := ih cands q { st with skipped_binary := st.skipped_binary + 1 }
        omega
      | candidate =>
        show queueSize ((if mb ≤ st.total_bytes_read + min f.size 4096 then
            (cands ++ [{ parts := f.parts, size := f.size, mtime_iso := f.mtime_iso }], q,
              { st with total_files := st.total_files + 1,
                        total_bytes_read := st.total_bytes_read + min f.size 4096 }, true)
          else walkEntries fs mb rest
            (cands ++ [{ parts := f.parts, size := f.size, mtime_iso := f.mtime_iso }]) q
            { st with total_files := st.total_files + 1,
                      total_bytes_read := st.total_bytes_read + min f.size 4096 }).2.1) + 1 ≤ _
        by_cases hstop : mb ≤ st.total_bytes_read + min f.size 4096
        · rw [if_pos hstop]
          show queueSize q + 1 ≤ _
          omega
        · rw [if_neg hstop]
          have := ih (cands ++ [{ parts := f.parts, size := f.size, mtime_iso := f.mtime_iso }]) q
            { st with total_files := st.total_files + 1,
                      total_bytes_read := st.total_bytes_read + min f.size 4096 }
          omega

/-- The queue loop's result does not depend on the fuel, as long as the
fuel exceeds the total queue size (each dequeued directory contributes
strictly less queue size than it removes); walk_candidates always supplies
such fuel, so the fuel-exhausted branch of walkQueue is unreachable. -/
theorem walkQueue_fuel_irrelevant (fs : Bool) (mb : Nat) : ∀ (n m : Nat) (q : List SimEntries)
    (cands : List Candidate) (st : WalkState),
    queueSize q < n → queueSize q < m →
    walkQueue fs mb n q cands st = walkQueue fs mb m q cands st := by
  intro n
  induction n using Nat.strong_induction_on with
  | _ n ih =>
    intro m q cands st hn hm
    cases n with
    | zero => omega
    | succ n' =>
      cases m with
      | zero => omega
      | succ m' =>
        cases q with
        | nil => rfl
        | cons d rest =>
          rcases hwe : walkEntries fs mb d cands [] st with ⟨c1, q1, st1, stop1⟩
          simp only [walkQueue, hwe]
          cases stop1 with
          | true => rfl
          | false =>
            simp only [Bool.false_eq_true, if_false]
            have hsz0 := walkEntries_qsize fs mb d cands [] st
            rw [hwe] at hsz0
            have hsz : queueSize q1 + 1 ≤ queueSize ([] : List SimEntries) + entriesSize d := hsz0
            have hq : queueSize (rest ++ q1) < n' := by
              have h1 : queueSize (d :: rest) = entriesSize d + queueSize rest := by
                simp [queueSize]
              have h2 : queueSize (rest ++ q1) = queueSize rest + queueSize q1 := by
                simp [queueSize]
              have h3 : queueSize ([] : List SimEntries) = 0 := by simp [queueSize]
              rw [h3] at hsz
              omega
            have hq2 : queueSize (rest ++ q1) < m' := by
              have h1 : queueSize (d :: rest) = entriesSize d + queueSize rest := by
                simp [queueSize]
              have h2 : queueSize (rest ++ q1) = queueSize rest + queueSize q1 := by
                simp [queueSize]
              have h3 : queueSize ([] : List SimEntries) = 0 := by simp [queueSize]
              rw [h3] at hsz
              omega
            exact ih n' (by omega) m' (rest ++ q1) c1 st1 hq hq2

/-! ## C4: byte offsets and raw hashes -/

/-- Char.ofNat round-trips on valid scalar values. -/
theorem char_toNat_ofNat {n : Nat} (h : n.isValidChar) : (Char.ofNat n).toNat = n := by
  rw [Char.ofNat, dif_pos h]
  rfl

/-- A scalar value below the surrogate range is valid. -/
theorem valid_of_lt {n : Nat} (h : n < 0xd800) : n.isValidChar := Or.inl h

/-- A scalar value between the surrogates and the plane limit is valid. -/
theorem valid_of_range {n : Nat} (h1 : 0xdfff < n) (h2 : n < 0x110000) : n.isValidChar :=
  Or.inr ⟨h1, h2⟩

/-- Encoding a cons is the char encoding followed by the tail encoding. -/
theorem utf8Encode_cons (c : Char) (t : Text) :
    utf8Encode (c :: t) = utf8EncodeChar c ++ utf8Encode t := by
  simp [utf8Encode]

/-- A successful utf8Step consumed the canonical encoding of the char it
produced: the decoder accepts only shortest forms, so re-encoding restores
exactly the consumed bytes. -/
theorem utf8Step_sound (b : Nat) (rest : List Nat) (c : Char) (rest2 : List Nat)
    (h : utf8Step b rest = some (c, rest2)) :
    ∃ pre, rest = pre ++ rest2 ∧ utf8EncodeChar c = b :: pre := by
  simp only [utf8Step] at h
  by_cases h1 : b < 0x80
  · rw [if_pos h1] at h
    simp only [Option.some.injEq, Prod.mk.injEq] at h
    obtain ⟨rfl, rfl⟩ := h
    refine ⟨[], rfl, ?_⟩
    have hn : (Char.ofNat b).toNat = b := char_toNat_ofNat (valid_of_lt (by omega))
    simp only [utf8EncodeChar, hn]
    rw [if_pos (by omega)]
  · rw [if_neg h1] at h
    by_cases h2 : 0xC2 ≤ b ∧ b ≤ 0xDF
    · rw [if_pos h2] at h
      cases rest with
      | nil => exact Option.noConfusion h
      | cons c1 rest1 =>
        dsimp only at h
        by_cases h3 : 0x80 ≤ c1 ∧ c1 ≤ 0xBF
        · rw [if_pos h3] at h
          simp only [Option.some.injEq, Prod.mk.injEq] at h
          obtain ⟨rfl, rfl⟩ := h
          refine ⟨[c1], rfl, ?_⟩
          have hn : (Char.ofNat ((b - 0xC0) * 64 + (c1 - 0x80))).toNat =
              (b - 0xC0) * 64 + (c1 - 0x80) := char_toNat_ofNat (valid_of_lt (by omega))
          simp only [utf8EncodeChar, hn]
          rw [if_neg (by omega), if_pos (by omega)]
          simp only [List.cons.injEq, and_true]
          omega
        · rw [if_neg h3] at h
          exact Option.noConfusion h
    · rw [if_neg h2] at h
      by_cases h3 : 0xE0 ≤ b ∧ b ≤ 0xEF
      · rw [if_pos h3] at h
        match rest with
        | [] => exact Option.noConfusion h
        | [c1] => exact Option.noConfusion h
        | c1 :: c2 :: rest2x =>
          dsimp only at h
          by_cases h4 : ((b = 0xE0 ∧ 0xA0 ≤ c1 ∧ c1 ≤ 0xBF) ∨
              (b = 0xED ∧ 0x80 ≤ c1 ∧ c1 ≤ 0x9F) ∨
              (b ≠ 0xE0 ∧ b ≠ 0xED ∧ 0x80 ≤ c1 ∧ c1 ≤ 0xBF)) ∧
              0x80 ≤ c2 ∧ c2 ≤ 0xBF
          · rw [if_pos h4] at h
            simp only [Option.some.injEq, Prod.mk.injEq] at h
            obtain ⟨rfl, rfl⟩ := h
            refine ⟨[c1, c2], rfl, ?_⟩
            obtain ⟨hd, hc2⟩ := h4
            have hval : ((b - 0xE0) * 4096 + (c1 - 0x80) * 64 + (c2 - 0x80)).isValidChar := by
              by_cases hb : b ≤ 0xED
              · exact valid_of_lt (by omega)
              · exact valid_of_range (by omega) (by omega)
            have hn := char_toNat_ofNat hval
            simp only [utf8EncodeChar, hn]
            rw [if_neg (by omega), if_neg (by omega), if_pos (by omega)]
            simp only [List.cons.injEq, and_true]
            omega
          · rw [if_neg h4] at h
            exact Option.noConfusion h
      · rw [if_neg h3] at h
        by_cases h4 : 0xF0 ≤ b ∧ b ≤ 0xF4
        · rw [if_pos h4] at h
          match rest with
          | [] => exact Option.noConfusion h
          | [c1] => exact Option.noConfusion h
          | [c1, c2] => exact Option.noConfusion h
          | c1 :: c2 :: c3 :: rest3 =>
            dsimp only at h
            by_cases h5 : ((b = 0xF0 ∧ 0x90 ≤ c1 ∧ c1 ≤ 0xBF) ∨
                (b = 0xF4 ∧ 0x80 ≤ c1 ∧ c1 ≤ 0x8F) ∨
                (b ≠ 0xF0 ∧ b ≠ 0xF4 ∧ 0x80 ≤ c1 ∧ c1 ≤ 0xBF)) ∧
                (0x80 ≤ c2 ∧ c2 ≤ 0xBF) ∧ (0x80 ≤ c3 ∧ c3 ≤ 0xBF)
            · rw [if_pos h5] at h
              simp only [Option.some.injEq, Prod.mk.injEq] at h
              obtain ⟨rfl, rfl⟩ := h
              refine ⟨[c1, c2, c3], rfl, ?_⟩
              obtain ⟨hd, hc2, hc3⟩ := h5
              have hval : ((b - 0xF0) * 262144 + (c1 - 0x80) * 4096 +
                  (c2 - 0x80) * 64 + (c3 - 0x80)).isValidChar :=
                valid_of_range (by omega) (by omega)
              have hn := char_toNat_ofNat hval
              simp only [utf8EncodeChar, hn]
              rw [if_neg (by omega), if_neg (by omega), if_neg (by omega)]
              simp only [List.cons.injEq, and_true]
              omega
            · rw [if_neg h5] at h
              exact Option.noConfusion h
        · rw [if_neg h4] at h
          exact Option.noConfusion h

/-- A successful fueled decode re-encodes to exactly the input bytes. -/
theorem utf8DecodeFuel_sound : ∀ (fuel : Nat) (data : List Nat) (t : Text),
    utf8DecodeFuel fuel data = some t → utf8Encode t = data := by
  intro fuel
  induction fuel with
  | zero =>
    intro data t h
    cases data with
    | nil =>
      simp only [utf8DecodeFuel, Option.some.injEq] at h
      simp [← h, utf8Encode]
    | cons b rest =>
      exact Option.noConfusion h
  | succ fuel ih =>
    intro data t h
    cases data with
    | nil =>
      simp only [utf8DecodeFuel, Option.some.injEq] at h
      simp [← h, utf8Encode]
    | cons b rest =>
      rw [show utf8DecodeFuel (fuel + 1) (b :: rest) =
          (match utf8Step b rest with
           | some (c, rest2) => (utf8DecodeFuel fuel rest2).map (fun t => c :: t)
           | none => none) from rfl] at h
      cases hs : utf8Step b rest with
      | none =>
        rw [hs] at h
        exact Option.noConfusion h
      | some pr =>
        obtain ⟨c, rest2⟩ := pr
        rw [hs] at h
        obtain ⟨t1, ht1, rfl⟩ := Option.map_eq_some'.mp h
        obtain ⟨pre, hpre, henc⟩ := utf8Step_sound b rest c rest2 hs
        rw [utf8Encode_cons, henc, ih rest2 t1 ht1, hpre]
        rfl

/-- Decode-encode round trip: strict UTF-8 decoding inverts encoding, so a
valid UTF-8 file equals the UTF-8 re-encoding of its decoded text. -/
theorem utf8Encode_decode (data : List Nat) (t : Text) (h : utf8Decode data = some t) :
    utf8Encode t = data :=
  utf8DecodeFuel_sound data.length data t h

/-- Splitting on newlines after appending a trailing newline appends one
empty final line. -/
theorem splitNL_snoc_nl : ∀ a : Text, splitNL (a ++ ['\n']) = splitNL a ++ [[]] := by
  intro a
  induction a with
  | nil => simp [splitNL]
  | cons c a ih =>
    by_cases hc : c = '\n'
    · subst hc
      rw [List.cons_append, splitNL_cons_nl, splitNL_cons_nl, ih]
      rfl
    · obtain ⟨l0, ls, hs⟩ := splitNL_exists_cons a
      have hs2 : splitNL (a ++ ['\n']) = l0 :: (ls ++ [[]]) := by
        rw [ih, hs]
        rfl
      rw [List.cons_append, splitNL_cons_ne hc _ hs2, splitNL_cons_ne hc _ hs]
      rfl

/-- Concatenating the newline-terminated per-line encodings yields the
encoding of the joined text followed by one newline byte. -/
theorem concat_encodeNL : ∀ ls : List Text, ls ≠ [] →
    concatBytes (ls.map (fun ln => utf8Encode (ln ++ ['\n']))) =
      utf8Encode (intercalateNL ls) ++ [10] := by
  intro ls
  induction ls with
  | nil => intro h; exact absurd rfl h
  | cons l rest ih =>
    intro _
    cases rest with
    | nil =>
      show utf8Encode (l ++ ['\n']) ++ concatBytes [] = utf8Encode (intercalateNL [l]) ++ [10]
      rw [utf8Encode_append]
      have h10 : utf8Encode ['\n'] = [10] := by decide
      rw [h10]
      show utf8Encode l ++ [10] ++ [] = utf8Encode l ++ [10]
      rw [List.append_nil]
    | cons l2 rest2 =>
      show utf8Encode (l ++ ['\n']) ++
          concatBytes ((l2 :: rest2).map (fun ln => utf8Encode (ln ++ ['\n']))) =
        utf8Encode (l ++ '\n' :: intercalateNL (l2 :: rest2)) ++ [10]
      rw [ih (by simp), utf8Encode_append, utf8Encode_append]
      have h10 : utf8Encode ['\n'] = [10] := by decide
      have hcons : utf8Encode ('\n' :: intercalateNL (l2 :: rest2)) =
          10 :: utf8Encode (intercalateNL (l2 :: rest2)) := by
        rw [utf8Encode_cons]
        have : utf8EncodeChar '\n' = [10] := by decide
        rw [this]
        rfl
      rw [h10, hcons]
      simp

/-- The length of a byte-string concatenation is the sum of the lengths. -/
theorem concatBytes_length : ∀ U : List (List Nat),
    (concatBytes U).length = (U.map List.length).sum := by
  intro U
  induction U with
  | nil => rfl
  | cons u rest ih =>
    show (u ++ concatBytes rest).length = _
    rw [List.length_append, ih]
    simp

/-- Taking a prefix-sum worth of bytes from a concatenation takes exactly
the concatenation of the corresponding list prefix. -/
theorem concat_take : ∀ (U : List (List Nat)) (j : Nat), j ≤ U.length →
    (concatBytes U).take (((U.take j).map List.length).sum) = concatBytes (U.take j) := by
  intro U
  induction U with
  | nil =>
    intro j hj
    simp [concatBytes]
  | cons u rest ih =>
    intro j hj
    cases j with
    | zero => simp [concatBytes]
    | succ j =>
      show (u ++ concatBytes rest).take (((u :: rest.take j).map List.length).sum) =
        concatBytes (u :: rest.take j)
      have hsum : ((u :: rest.take j).map List.length).sum =
          u.length + ((rest.take j).map List.length).sum := by simp
      rw [hsum]
      have htk : (u ++ concatBytes rest).take (u.length + ((rest.take j).map List.length).sum) =
          u ++ (concatBytes rest).take (((rest.take j).map List.length).sum) := by
        rw [List.take_append_eq_append_take, List.take_of_length_le (by omega)]
        congr 2
        omega
      rw [htk, ih j (by simpa using hj)]
      rfl

/-- The byte slice between two prefix sums of a concatenation is the
concatenation of the corresponding sublist. -/
theorem concat_drop_take : ∀ (U : List (List Nat)) (i j : Nat), i ≤ j → j ≤ U.length →
    ((concatBytes U).drop (((U.take i).map List.length).sum)).take
        ((((U.take j).map List.length).sum) - (((U.take i).map List.length).sum)) =
      concatBytes ((U.drop i).take (j - i)) := by
  intro U
  induction U with
  | nil =>
    intro i j hij hj
    simp [concatBytes]
  | cons u rest ih =>
    intro i j hij hj
    cases i with
    | zero =>
      simp only [List.take_zero, List.map_nil, List.sum_nil, List.drop_zero, Nat.sub_zero]
      exact concat_take (u :: rest) j hj
    | succ i =>
      cases j with
      | zero => omega
      | succ j =>
        show ((u ++ concatBytes rest).drop (((u :: rest.take i).map List.length).sum)).take
            ((((u :: rest.take j).map List.length).sum) -
              (((u :: rest.take i).map List.length).sum)) =
          concatBytes ((rest.drop i).take (j + 1 - (i + 1)))
        have hsumi : ((u :: rest.take i).map List.length).sum =
            u.length + ((rest.take i).map List.length).sum := by simp
        have hsumj : ((u :: rest.take j).map List.length).sum =
            u.length + ((rest.take j).map List.length).sum := by simp
        rw [hsumi, hsumj, drop_append_plus]
        have harith : u.length + ((rest.take j).map List.length).sum -
            (u.length + ((rest.take i).map List.length).sum) =
            ((rest.take j).map List.length).sum - ((rest.take i).map List.length).sum := by
          omega
        rw [harith]
        have hji : j + 1 - (i + 1) = j - i := by omega
        rw [hji]
        exact ih i j (by omega) (by simpa using hj)

/-- Dropping then taking inside the original length ignores an appended
final byte. -/
theorem snoc_slice (data : List Nat) (x bs k : Nat) (h : bs + k ≤ data.length) :
    ((data ++ [x]).drop bs).take k = (data.drop bs).take k := by
  rw [List.drop_append_eq_append_drop]
  have h1 : bs - data.length = 0 := by omega
  rw [h1, List.drop_zero, List.take_append_eq_append_take]
  have h2 : k - (data.drop bs).length = 0 := by
    rw [List.length_drop]
    omega
  rw [h2, List.take_zero, List.append_nil]

/-- C4 counterexample: "abc" (3 bytes, valid UTF-8, no trailing newline)
yields one Fragment with byte_end = 4, past the end of the file: the
byte-offset table appends "\n" to every split line, including the last line
even when the file does not end with a newline. -/
theorem c4_byte_offsets_counterexample :
    utf8Decode [97, 98, 99] = some ['a', 'b', 'c'] ∧
    (file_to_fragments "p" "m" "file" 70 [97, 98, 99]).map Fragment.byte_end = [4] ∧
    ¬ 4 ≤ ([97, 98, 99] : List Nat).length := by
  decide

/-- C4: for a file whose bytes are valid UTF-8 and whose decoded text has no
carriage return and ends with a newline, every Fragment's byte_start and
byte_end are exact offsets into the original byte stream (byte_start ≤
byte_end ≤ file length) and raw_sha256 is the SHA-256 hex digest of exactly
the original bytes data[byte_start:byte_end] spanning the fragment's line
range.  Without the trailing newline the re-encoding counts one synthetic
newline byte past the end of the file (see the counterexample). -/
theorem c4_byte_offsets (p m st : String) (bc : Nat) (data : List Nat) (t : Text)
    (hdec : utf8Decode data = some t) (hcr : '\r' ∉ t)
    (hnl : t.getLast? = some '\n') :
    ∀ f ∈ file_to_fragments p m st bc data,
      f.byte_start ≤ f.byte_end ∧ f.byte_end ≤ data.length ∧
      f.raw_sha256 =
        sha256_bytes ((data.drop f.byte_start).take (f.byte_end - f.byte_start)) := by
  obtain ⟨t0, rfl⟩ := List.getLast?_eq_some_iff.mp hnl
  have hdf : decodeFile data = some (t0 ++ ['\n']) := by
    unfold decodeFile
    rw [hdec]
  have htE : (t0 ++ ['\n']).isEmpty = false := by cases t0 <;> rfl
  intro f hf
  unfold file_to_fragments at hf
  rw [hdf] at hf
  simp only [Option.getD_some] at hf
  rw [if_neg (by rw [htE]; exact Bool.false_ne_true)] at hf
  rw [fragmentsOfText_eq_map p m st bc _ htE] at hf
  have hfold : foldCR (t0 ++ ['\n']) = t0 ++ ['\n'] := foldCR_eq_self hcr
  rw [hfold] at hf
  obtain ⟨x, hx, rfl⟩ := List.mem_map.1 hf
  have hqmem : x.2 ∈ split_into_paragraphs (t0 ++ ['\n']) := (mem_enumerateFrom hx).2
  have hqmem2 : x.2 ∈ splitParasAux (splitNL (t0 ++ ['\n'])) 0 0 [] := by
    unfold split_into_paragraphs at hqmem
    rw [hfold] at hqmem
    exact hqmem
  obtain ⟨h1, h2, h3, h4, h5, h6⟩ :=
    splitParasAux_mem (splitNL (t0 ++ ['\n'])) 0 0 [] (by simp) (by simp) x.2 hqmem2
  rw [List.nil_append] at h4 h5 h6
  simp only [Nat.sub_zero, Nat.zero_add] at h3 h4 h5 h6
  have hLsnoc : splitNL (t0 ++ ['\n']) = splitNL t0 ++ [[]] := splitNL_snoc_nl t0
  have hn0 : (splitNL (t0 ++ ['\n'])).length = (splitNL t0).length + 1 := by
    rw [hLsnoc]
    simp
  have hle : x.2.2.1 ≤ (splitNL t0).length := by
    by_contra hgt
    push_neg at hgt
    have hmem : ([] : Text) ∈
        ((splitNL (t0 ++ ['\n'])).drop (x.2.1 - 1)).take (x.2.2.1 + 1 - x.2.1) := by
      rw [hLsnoc, List.drop_append_eq_append_drop]
      have hz : x.2.1 - 1 - (splitNL t0).length = 0 := by omega
      rw [hz, List.drop_zero]
      have hone : ([[]] : List Text).length = 1 := rfl
      have hlen2 : ((splitNL t0).drop (x.2.1 - 1) ++ [[]]).length ≤ x.2.2.1 + 1 - x.2.1 := by
        rw [List.length_append, List.length_drop, hone]
        omega
      rw [List.take_of_length_le hlen2]
      exact List.mem_append.2 (Or.inr (List.mem_singleton.2 rfl))
    exact absurd (h6 [] hmem) (by decide)
  set U := (splitNL (t0 ++ ['\n'])).map (fun ln => utf8Encode (ln ++ ['\n'])) with hU
  have hUlen : U.length = (splitNL t0).length + 1 := by
    rw [hU, List.length_map, hn0]
  have hUpos : ∀ b ∈ U, 1 ≤ b.length := by
    intro b hb
    rw [hU] at hb
    obtain ⟨ln, _, rfl⟩ := List.mem_map.1 hb
    exact utf8_line_len_pos ln
  have hconc : concatBytes U = data ++ [10] := by
    rw [hU, concat_encodeNL _ (splitNL_ne_nil _), intercalateNL_splitNL,
      utf8Encode_decode data (t0 ++ ['\n']) hdec]
  have hbs : (byteOffsets U 0).getD (x.2.1 - 1) 0 =
      ((U.take (x.2.1 - 1)).map List.length).sum := by
    rw [byteOffsets_getD U 0 (x.2.1 - 1) (by omega)]
    omega
  have hbe : (byteOffsets U 0).getD x.2.2.1 0 =
      ((U.take x.2.2.1).map List.length).sum := by
    rw [byteOffsets_getD U 0 x.2.2.1 (by omega)]
    omega
  have hmono := byteOffsets_mono U hUpos (x.2.1 - 1) x.2.2.1 (by omega) (by omega)
  have htot : (U.map List.length).sum = data.length + 1 := by
    rw [← concatBytes_length U, hconc]
    simp
  have htail : U = (splitNL t0).map (fun ln => utf8Encode (ln ++ ['\n'])) ++ [[10]] := by
    rw [hU, hLsnoc, List.map_append]
    congr 1
  have hAsum : (((splitNL t0).map (fun ln => utf8Encode (ln ++ ['\n']))).map List.length).sum =
      data.length := by
    have hx2 := htot
    rw [htail, List.map_append, List.sum_append] at hx2
    have hone2 : (([[10]] : List (List Nat)).map List.length).sum = 1 := rfl
    rw [hone2] at hx2
    omega
  have hbound : ((U.take x.2.2.1).map List.length).sum ≤ data.length := by
    have hUtake : U.take x.2.2.1 =
        ((splitNL t0).map (fun ln => utf8Encode (ln ++ ['\n']))).take x.2.2.1 := by
      rw [htail, List.take_append_eq_append_take]
      have hz : x.2.2.1 - ((splitNL t0).map (fun ln => utf8Encode (ln ++ ['\n']))).length = 0 := by
        rw [List.length_map]
        omega
      rw [hz, List.take_zero, List.append_nil]
    rw [hUtake]
    set A := (splitNL t0).map (fun ln => utf8Encode (ln ++ ['\n'])) with hA
    have hsum2 : (A.map List.length).sum =
        ((A.take x.2.2.1).map List.length).sum + ((A.drop x.2.2.1).map List.length).sum := by
      conv_lhs => rw [(List.take_append_drop x.2.2.1 A).symm]
      rw [List.map_append, List.sum_append]
    omega
  refine ⟨?_, ?_, ?_⟩
  · show (byteOffsets U 0).getD (x.2.1 - 1) 0 ≤ (byteOffsets U 0).getD x.2.2.1 0
    omega
  · show (byteOffsets U 0).getD x.2.2.1 0 ≤ data.length
    rw [hbe]
    exact hbound
  · show sha256_bytes (concatBytes ((U.drop (x.2.1 - 1)).take (x.2.2.1 - (x.2.1 - 1)))) =
      sha256_bytes ((data.drop ((byteOffsets U 0).getD (x.2.1 - 1) 0)).take
        ((byteOffsets U 0).getD x.2.2.1 0 - (byteOffsets U 0).getD (x.2.1 - 1) 0))
    rw [hbs, hbe]
    have hct := concat_drop_take U (x.2.1 - 1) x.2.2.1 (by omega) (by omega)
    rw [hconc] at hct
    have hslice := snoc_slice data 10 (((U.take (x.2.1 - 1)).map List.length).sum)
      (((U.take x.2.2.1).map List.length).sum - ((U.take (x.2.1 - 1)).map List.length).sum)
      (by omega)
    rw [hslice] at hct
    rw [← hct]

/-- C4 witness: the newline-terminated valid-UTF-8 file "hi\n" satisfies the
hypotheses, and its fragments' byte ranges lie inside the file with matching
raw hashes. -/
theorem c4_byte_offsets_witness :
    utf8Decode [104, 105, 10] = some ['h', 'i', '\n'] ∧
    '\r' ∉ (['h', 'i', '\n'] : Text) ∧
    (['h', 'i', '\n'] : Text).getLast? = some '\n' ∧
    (∀ f ∈ file_to_fragments "p" "m" "file" 70 [104, 105, 10],
      f.byte_start ≤ f.byte_end ∧ f.byte_end ≤ ([104, 105, 10] : List Nat).length ∧
      f.raw_sha256 = sha256_bytes ((([104, 105, 10] : List Nat).drop f.byte_start).take
        (f.byte_end - f.byte_start))) :=
  ⟨by decide, by decide, by decide,
   c4_byte_offsets "p" "m" "file" 70 [104, 105, 10] ['h', 'i', '\n']
     (by decide) (by decide) (by decide)⟩

end Kintsugi
